import Mathlib

/-!
Verification development for `gen_glad_doxygen.py`, a tool that synthesizes
Doxygen docblocks for GLAD alias macro definitions from the Khronos OpenGL
registry (`gl.xml`) and DocBook reference pages, rewriting a header file
in an idempotence-oriented way.

The Python source is shallowly embedded: strings are Lean `String`s, Python
dicts are association lists with Python-dict update semantics (`dictSet`),
`xml.etree` element trees are the inductive `XElem`, the file system behind
the reference-page store is a function `String → Option XElem`, and file
read/write is modeled by `splitlines` / `outputString`.
-/

set_option maxHeartbeats 2000000
set_option maxRecDepth 100000

namespace GladDoxygen

/-- Python's whitespace predicate (`str.isspace`, the set used by `str.split()`,
`str.strip()` and by `\s` in `re` string patterns): ASCII whitespace plus the
Unicode space characters recognized by CPython. -/
def pyIsSpace (c : Char) : Bool :=
  let n := c.toNat
  (9 ≤ n && n ≤ 13) || n = 32 || (28 ≤ n && n ≤ 31) || n = 0x85 || n = 0xa0 ||
  n = 0x1680 || (0x2000 ≤ n && n ≤ 0x200a) || n = 0x2028 || n = 0x2029 ||
  n = 0x202f || n = 0x205f || n = 0x3000

/-- The line-boundary characters of Python's `str.splitlines`. -/
def isLineBoundary (c : Char) : Bool :=
  let n := c.toNat
  n = 10 || n = 11 || n = 12 || n = 13 || n = 28 || n = 29 || n = 30 ||
  n = 0x85 || n = 0x2028 || n = 0x2029

/-- A string free of line-boundary characters: it occupies a single line. -/
def lineClean (s : String) : Bool :=
  s.toList.all (fun c => !isLineBoundary c)

/-- `str.splitlines` worker over characters; `cur` is the current line
reversed; `\r\n` counts as a single boundary. -/
def splitlinesAux : List Char → List Char → List String
  | cur, [] => if cur.isEmpty then [] else [String.mk cur.reverse]
  | cur, '\r' :: '\n' :: rest => String.mk cur.reverse :: splitlinesAux [] rest
  | cur, c :: rest =>
    if isLineBoundary c then String.mk cur.reverse :: splitlinesAux [] rest
    else splitlinesAux (c :: cur) rest

/-- Python `str.splitlines()` (keepends=False). -/
def splitlines (s : String) : List String := splitlinesAux [] s.toList

/-- Worker for Python's no-separator `str.split()`: splits on runs of
whitespace and drops empty pieces. -/
def pySplitWsGo : List String → List Char → List Char → List String
  | words, cur, [] => words ++ (if cur.isEmpty then [] else [String.mk cur.reverse])
  | words, cur, c :: rest =>
    if pyIsSpace c then
      pySplitWsGo (words ++ (if cur.isEmpty then [] else [String.mk cur.reverse])) [] rest
    else pySplitWsGo words (c :: cur) rest

/-- Python `" ".join(s.split())`: collapse internal whitespace, trim ends. -/
def norm_ws (s : String) : String :=
  String.intercalate " " (pySplitWsGo [] [] s.toList)

/-- Python `str.strip()` (no arguments: strip whitespace at both ends). -/
def pyStrip (s : String) : String :=
  String.mk (((s.toList.dropWhile pyIsSpace).reverse.dropWhile pyIsSpace).reverse)

/-- Python `str.lstrip()`. -/
def pyLStrip (s : String) : String :=
  String.mk (s.toList.dropWhile pyIsSpace)

/-- Python `sub in s` on strings: substring containment. -/
def strContains (s pat : String) : Bool :=
  decide (pat.toList <:+: s.toList)

/-- Python `s.startswith(pat)`. -/
def pyStartsWith (s pat : String) : Bool :=
  List.isPrefixOf pat.toList s.toList

/-- Python `s.endswith(pat)`. -/
def pyEndsWith (s pat : String) : Bool :=
  List.isSuffixOf pat.toList s.toList

/-- Python `str.lower()` (ASCII case mapping suffices for this program's uses). -/
def pyLower (s : String) : String := String.mk (s.toList.map Char.toLower)

/-- Python-dict assignment `d[k] = v` on an insertion-ordered association
list: overwrite in place if the key exists, else append. -/
def dictSet {β : Type} : List (String × β) → String → β → List (String × β)
  | [], k, v => [(k, v)]
  | (k', v') :: rest, k, v =>
    if k' = k then (k, v) :: rest else (k', v') :: dictSet rest k v

/-- Python `int(s)` on decimal literals: strip whitespace, optional sign,
one or more ASCII digits (underscore separators and non-ASCII digits are not
used by the registry's version numbers and are not modeled). `none` models
`ValueError`. -/
def pyInt (s : String) : Option Int :=
  let cs := ((s.toList.dropWhile pyIsSpace).reverse.dropWhile pyIsSpace).reverse
  match cs with
  | [] => none
  | c :: rest =>
    let sign : Int := if c = '-' then -1 else 1
    let digits := if c = '-' || c = '+' then rest else c :: rest
    if digits.isEmpty then none
    else if digits.all (fun d => 48 ≤ d.toNat && d.toNat ≤ 57) then
      some (sign * digits.foldl (fun a d => a * 10 + ((d.toNat : Int) - 48)) 0)
    else none

/-- Python `number.split(".")` over characters: split at every dot, keeping
empty pieces. -/
def pySplitDotGo : List Char → List Char → List String
  | cur, [] => [String.mk cur.reverse]
  | cur, c :: rest =>
    if c = '.' then String.mk cur.reverse :: pySplitDotGo [] rest
    else pySplitDotGo (c :: cur) rest

/-- `tuple(map(int, number.split(".")))`: parse a dot-separated version
string; `none` models the `ValueError` raised by any failing component. -/
def parseVersionTuple (s : String) : Option (List Int) :=
  (pySplitDotGo [] s.toList).mapM pyInt

/-- Python tuple `<` (lexicographic; a strict prefix is smaller). -/
def tupLt : List Int → List Int → Bool
  | [], [] => false
  | [], _ :: _ => true
  | _ :: _, [] => false
  | a :: as', b :: bs' =>
    if a < b then true else if b < a then false else tupLt as' bs'

/-! ## Registry model (`GLRegistry`)

The registry's constructor parses `gl.xml` once into in-memory tables; the
tables are the data the queries below consult, so the structure carries the
tables directly (the XML traversal of `_parse_commands`/`_parse_extensions`
is I/O-boundary plumbing).  `_parse_features` is embedded in full below
as `parse_features` because a claim is about its version-selection logic. -/

/-- One parsed `<param>` of a registry command. -/
structure RegParam where
  type : String
  name : String
  group : Option String
  len : Option String
deriving DecidableEq, Repr

/-- One parsed `<command>`: return-type text and parameter list. -/
structure CommandInfo where
  ret : String
  params : List RegParam
deriving DecidableEq, Repr

/-- The in-memory tables `GLRegistry.__init__` builds. -/
structure GLRegistry where
  commands : List (String × CommandInfo)
  alias_of : List (String × String)
  introduced_version : List (String × String)
  extensions_for_cmd : List (String × List String)

/-- The body of `GLRegistry.resolve_alias`'s `while` loop, with explicit
fuel.  The Python loop is
`while cur in self.alias_of and cur not in seen: seen.add(cur); cur = self.alias_of[cur]`;
the fuel `alias_of.length + 1` used by `resolve_alias` below is shown
sufficient (the loop adds a new table key to `seen` every iteration). -/
def resolveAliasAux (al : List (String × String)) : Nat → List String → String → String
  | 0, _, cur => cur
  | fuel + 1, seen, cur =>
    match List.lookup cur al with
    | none => cur
    | some nxt => if cur ∈ seen then cur else resolveAliasAux al fuel (cur :: seen) nxt

/-- Same loop, also returning the final contents of `seen` (most recent
addition first), for reasoning about the cycle guard. -/
def resolveAliasTrace (al : List (String × String)) :
    Nat → List String → String → String × List String
  | 0, seen, cur => (cur, seen)
  | fuel + 1, seen, cur =>
    match List.lookup cur al with
    | none => (cur, seen)
    | some nxt =>
      if cur ∈ seen then (cur, seen) else resolveAliasTrace al fuel (cur :: seen) nxt

/-- `GLRegistry.resolve_alias`. -/
def GLRegistry.resolve_alias (reg : GLRegistry) (name : String) : String :=
  resolveAliasAux reg.alias_of (reg.alias_of.length + 1) [] name

/-- `GLRegistry.signature`. -/
def GLRegistry.signature (reg : GLRegistry) (name : String) :
    Option (String × List RegParam) :=
  (List.lookup name reg.commands).map (fun info => (info.ret, info.params))

/-- `GLRegistry.signature_canonical`. -/
def GLRegistry.signature_canonical (reg : GLRegistry) (name : String) :
    Option (String × List RegParam × String) :=
  let canon := reg.resolve_alias name
  (reg.signature canon).map (fun s => (s.1, s.2, canon))

/-- Code-point lexicographic order on character lists (Python's string
comparison). -/
def charListLe : List Char → List Char → Bool
  | [], _ => true
  | _ :: _, [] => false
  | a :: as', b :: bs' =>
    if a.toNat < b.toNat then true
    else if b.toNat < a.toNat then false
    else charListLe as' bs'

/-- Python `a <= b` on strings. -/
def strLe (a b : String) : Bool := charListLe a.toList b.toList

/-- Insertion sort used to model Python `sorted` on strings (code-point
lexicographic). -/
def insertSorted (s : String) : List String → List String
  | [] => [s]
  | x :: xs => if strLe s x then s :: x :: xs else x :: insertSorted s xs

/-- Python `sorted` on a list of strings. -/
def sortStrings (l : List String) : List String := l.foldr insertSorted []

/-- `GLRegistry.version_or_exts`: the introducing version (literal name
first, then canonical) and the sorted union of contributing extensions. -/
def GLRegistry.version_or_exts (reg : GLRegistry) (name : String) :
    Option String × List String :=
  let v :=
    match List.lookup name reg.introduced_version with
    | some v => some v
    | none => List.lookup (reg.resolve_alias name) reg.introduced_version
  let e1 := (List.lookup name reg.extensions_for_cmd).getD []
  let e2 := (List.lookup (reg.resolve_alias name) reg.extensions_for_cmd).getD []
  (v, sortStrings (List.dedup (e1 ++ e2)))

/-- The per-command update performed inside `_parse_features`' inner loop:
first value wins outright; later values replace it only when both parse as
dot-separated integer tuples and the new one is strictly smaller (the
`try/except` keeps the existing value on any parse failure). -/
def featStep (intro : List (String × String)) (number nm : String) :
    List (String × String) :=
  match List.lookup nm intro with
  | none => dictSet intro nm number
  | some v =>
    match parseVersionTuple number, parseVersionTuple v with
    | some a, some b => if tupLt a b then dictSet intro nm number else intro
    | _, _ => intro

/-- `GLRegistry._parse_features`: each feature block is (api attribute,
number attribute, required command names in document order); blocks with
`api != "gl"` or an empty number are skipped. -/
def parse_features (feats : List (String × String × List String)) :
    List (String × String) :=
  feats.foldl
    (fun intro f =>
      if f.1 ≠ "gl" then intro
      else if f.2.1 = "" then intro
      else f.2.2.foldl (fun intro nm => featStep intro f.2.1 nm) intro)
    []

/-- The ordered multiset of version numbers that reach `featStep` for a
given command name across the feature list. -/
def numbersFor (nm : String) (feats : List (String × String × List String)) :
    List String :=
  feats.flatMap
    (fun f =>
      if f.1 ≠ "gl" then []
      else if f.2.1 = "" then []
      else (f.2.2.filter (fun x => x = nm)).map (fun _ => f.2.1))

/-- The same update sequence projected onto a single name: fold of the
version comparison over the numbers that reach that name. -/
def stepV (acc : Option String) (number : String) : Option String :=
  match acc with
  | none => some number
  | some v =>
    match parseVersionTuple number, parseVersionTuple v with
    | some a, some b => if tupLt a b then some number else some v
    | _, _ => some v

/-- Fold of `stepV` from an accumulator. -/
def foldV (acc : Option String) (nums : List String) : Option String :=
  nums.foldl stepV acc

/-! ## Element trees (`xml.etree.ElementTree`) -/

/-- An ElementTree element: tag (namespaced tags are spelled `{uri}local`,
as ElementTree does), attribute dict, `.text`, `.tail`, children. -/
inductive XElem : Type where
  | mk (tag : String) (attrs : List (String × String)) (text : Option String)
      (tail : Option String) (children : List XElem)

/-- The `.tag` field. -/
def XElem.tag : XElem → String
  | .mk t _ _ _ _ => t

/-- The `.attrib` dict. -/
def XElem.attrs : XElem → List (String × String)
  | .mk _ a _ _ _ => a

/-- The `.text` field. -/
def XElem.text : XElem → Option String
  | .mk _ _ t _ _ => t

/-- The `.tail` field. -/
def XElem.tail : XElem → Option String
  | .mk _ _ _ t _ => t

/-- The child list. -/
def XElem.children : XElem → List XElem
  | .mk _ _ _ _ cs => cs

/-- `elem.get(key)`. -/
def XElem.getAttr (e : XElem) (k : String) : Option String :=
  List.lookup k e.attrs

mutual
/-- `"".join(elem.itertext())`: the element's text followed by each child's
itertext and tail, in document order. -/
def flatten_text : XElem → String
  | .mk _ _ t _ cs => t.getD "" ++ flattenChildren cs
/-- itertext over a child list. -/
def flattenChildren : List XElem → String
  | [] => ""
  | c :: cs => flatten_text c ++ (XElem.tail c).getD "" ++ flattenChildren cs
end

mutual
/-- All strict descendants of an element in document order (what the
ElementTree path `.//` iterates over). -/
def descendants : XElem → List XElem
  | .mk _ _ _ _ cs => descList cs
/-- Descendant enumeration of a child list. -/
def descList : List XElem → List XElem
  | [] => []
  | c :: cs => c :: (descendants c ++ descList cs)
end

/-- `elem.findall(".//tag")`. -/
def findallDesc (e : XElem) (t : String) : List XElem :=
  (descendants e).filter (fun x => x.tag == t)

/-- `elem.findall("./tag")`. -/
def findallChild (e : XElem) (t : String) : List XElem :=
  e.children.filter (fun x => x.tag == t)

/-- `elem.find("./tag")`. -/
def findChild (e : XElem) (t : String) : Option XElem :=
  e.children.find? (fun x => x.tag == t)

/-- `elem.findtext("tag")`: the found element's `.text`, with `None` text
read as `""` (ElementTree's documented behaviour); `none` when no element
matches. -/
def findtextChild (e : XElem) (t : String) : Option String :=
  (findChild e t).map (fun x => x.text.getD "")

/-- `elem.find(".//tag")`. -/
def findDesc (e : XElem) (t : String) : Option XElem :=
  (descendants e).find? (fun x => x.tag == t)

/-- `elem.findtext(".//tag")`. -/
def findtextDesc (e : XElem) (t : String) : Option String :=
  (findDesc e t).map (fun x => x.text.getD "")

/-- Resolution of the `db:` prefix against the DocBook namespace map. -/
def dbTag (t : String) : String := "{http://docbook.org/ns/docbook}" ++ t

/-- The expanded attribute key of `xml:id`. -/
def xmlIdAttr : String := "{http://www.w3.org/XML/1998/namespace}id"

/-- Python `a or b` on optional strings (`None` and `""` are falsy). -/
def pyOrStr (a b : Option String) : Option String :=
  match a with
  | none => b
  | some s => if s = "" then b else a

/-! ## `re.sub` word removal

`_parse_commands` and `RefPages.c_signature` strip an identifier out of
declaration text with `re.sub(r"\b" + re.escape(name) + r"\b", "", text)`. -/

/-- Word characters: the regex class `[A-Za-z0-9_]` of `DEFINE_RE`, and an
ASCII approximation of `\w`/`\b` in `re.sub` (all identifiers involved are
ASCII). -/
def isWordAscii (c : Char) : Bool :=
  let n := c.toNat
  (65 ≤ n && n ≤ 90) || (97 ≤ n && n ≤ 122) || (48 ≤ n && n ≤ 57) || n = 95

/-- Word-character test through an optional character (absent = non-word,
as at the ends of the subject string). -/
def isWordOpt : Option Char → Bool
  | none => false
  | some c => isWordAscii c

/-- Left-to-right scan of `re.sub(r"\b<name>\b", "", s)` for a nonempty
name `c0 :: nmRest`: drop each non-overlapping whole-word occurrence
(word boundary = exactly one adjacent word character). `prev` is the
character of the original string just before the current position. -/
def removeWordAux (c0 : Char) (nmRest : List Char) : Option Char → List Char → List Char
  | _, [] => []
  | prev, c :: rest =>
    if (c0 :: nmRest).isPrefixOf (c :: rest)
        && (isWordOpt prev != isWordAscii c0)
        && (isWordOpt (((c :: rest).drop (nmRest.length + 1)).head?)
              != isWordAscii ((c0 :: nmRest).getLast (by simp)))
    then removeWordAux c0 nmRest (some ((c0 :: nmRest).getLast (by simp)))
        ((c :: rest).drop (nmRest.length + 1))
    else c :: removeWordAux c0 nmRest (some c) rest
  termination_by _ l => l.length
  decreasing_by
    all_goals simp [List.length_drop]
    omega

/-- `re.sub(r"\b" + re.escape(name) + r"\b", "", s)`; with an empty name
the pattern only matches empty strings and the substitution is a no-op. -/
def removeWord (name s : String) : String :=
  match name.toList with
  | [] => s
  | c0 :: nmRest => String.mk (removeWordAux c0 nmRest none s.toList)

/-! ## Reference page store (`RefPages`)

`RefPages` lazily loads and caches one parsed document per function name;
the file system plus `_parse_lenient` recovery is modeled by the pure map
`docs` (absent or unrecoverable files are `none`); the cache is pure
memoization and has no observable semantics. -/

/-- The reference page store: collection tag (final path segment of the
refpages folder, `"gl4"` when no folder is given) and the parsed documents. -/
structure RefPages where
  folder_tag : String
  docs : String → Option XElem

/-- `RefPages.load`. -/
def RefPages.load (rp : RefPages) (func : String) : Option XElem :=
  rp.docs func

/-- `RefPages.brief`: the first `refpurpose` text (namespaced, then bare),
whitespace-normalized; `None` when absent or empty. -/
def RefPages.brief (rp : RefPages) (func : String) : Option String :=
  match rp.load func with
  | none => none
  | some root =>
    let t1 := findtextDesc root (dbTag "refpurpose")
    let t :=
      match t1 with
      | none => findtextDesc root "refpurpose"
      | some s => if s = "" then findtextDesc root "refpurpose" else t1
    match t with
    | none => none
    | some s => if s = "" then none else some (norm_ws s)

/-- The per-prototype body of `RefPages.c_signature`'s loop: `none` models
`continue`. -/
def protoSig (func : String) (proto : XElem) : Option (String × List (String × String)) :=
  let fdef? :=
    match findChild proto (dbTag "funcdef") with
    | some f => some f
    | none => findChild proto "funcdef"
  match fdef? with
  | none => none
  | some fdef =>
    let fname := pyStrip ((pyOrStr (findtextChild fdef (dbTag "function"))
        (findtextChild fdef "function")).getD "")
    if fname ≠ func then none
    else
      let proto_text := norm_ws (flatten_text fdef)
      let ret := norm_ws (removeWord fname proto_text)
      let params :=
        ((findallChild proto (dbTag "paramdef")) ++ findallChild proto "paramdef").foldl
          (fun ps p =>
            let pname := pyStrip ((pyOrStr (findtextChild p (dbTag "parameter"))
                (findtextChild p "parameter")).getD "")
            if pname = "" then ps
            else ps ++ [(norm_ws (removeWord pname (norm_ws (flatten_text p))), pname)])
          []
      some (ret, params)

/-- `RefPages.c_signature`: return-type text and (type, name) parameter
pairs of the first function prototype whose declared name matches. -/
def RefPages.c_signature (rp : RefPages) (func : String) :
    Option (String × List (String × String)) :=
  match rp.load func with
  | none => none
  | some root =>
    ((findallDesc root (dbTag "funcprototype")) ++
      findallDesc root "funcprototype").findSome? (protoSig func)

/-- The parameter names named by one description-list entry's terms. -/
def termNames (e : XElem) : List String :=
  ((findallChild e (dbTag "term")) ++ findallChild e "term").foldl
    (fun ts t =>
      match pyOrStr (findtextChild t (dbTag "parameter")) (findtextChild t "parameter") with
      | none => ts
      | some p => if p = "" then ts else ts ++ [pyStrip p])
    []

/-- One description-list entry's contribution to the mapping: every term
name receives the entry's flattened description (skipped when empty). -/
def entryUpdate (out : List (String × String)) (e : XElem) : List (String × String) :=
  let terms := termNames e
  if terms.isEmpty then out
  else
    let li :=
      match findChild e (dbTag "listitem") with
      | some l => some l
      | none => findChild e "listitem"
    let desc :=
      match li with
      | some l => norm_ws (flatten_text l)
      | none => ""
    terms.foldl (fun out nm => if desc = "" then out else dictSet out nm desc) out

/-- Does this `refsect1` hold the parameters section (`xml:id` equal to
`parameters`, or title `Parameters` case-insensitively)? -/
def isParamSect (node : XElem) : Bool :=
  let title := pyLower (pyStrip ((pyOrStr (findtextChild node (dbTag "title"))
      (findtextChild node "title")).getD ""))
  (node.getAttr xmlIdAttr == some "parameters") || (title == "parameters")

/-- `RefPages.param_descriptions`. -/
def RefPages.param_descriptions (rp : RefPages) (func : String) :
    List (String × String) :=
  match rp.load func with
  | none => []
  | some root =>
    match ((findallDesc root (dbTag "refsect1")) ++
        findallDesc root "refsect1").find? isParamSect with
    | none => []
    | some sect =>
      ((findallDesc sect (dbTag "variablelist")) ++
        findallDesc sect "variablelist").foldl
        (fun out v =>
          ((findallChild v (dbTag "varlistentry")) ++
            findallChild v "varlistentry").foldl entryUpdate out)
        []

/-! ## Docblock synthesis (`build_doc`) -/

/-- `make_refpage_url`. -/
def make_refpage_url (folder_tag func : String) : String :=
  "https://registry.khronos.org/OpenGL-Refpages/" ++ folder_tag ++ "/html/" ++
    func ++ ".xhtml"

/-- `make_param_line_with_desc`. -/
def make_param_line_with_desc (pname ptype : String) (desc : Option String)
    (trailer : String) : String :=
  match desc with
  | some d =>
    if d = "" then " * \\param " ++ pname ++ " (" ++ ptype ++ ")" ++ trailer
    else " * \\param " ++ pname ++ " (" ++ ptype ++ ") - " ++ d ++ trailer
  | none => " * \\param " ++ pname ++ " (" ++ ptype ++ ")" ++ trailer

/-- `make_param_trailer_from_reg`. -/
def make_param_trailer_from_reg (reg_p : Option RegParam) : String :=
  match reg_p with
  | none => ""
  | some p =>
    let extras :=
      (match p.group with
       | some g => if g = "" then [] else ["group: " ++ g]
       | none => []) ++
      (match p.len with
       | some l => if l = "" then [] else ["len: " ++ l]
       | none => [])
    if extras.isEmpty then "" else "  [" ++ String.intercalate " | " extras ++ "]"

/-- The brief `build_doc` uses: reference-page brief for the literal name,
retried for the canonical name when absent and the names differ
(`build_doc` lines 306–309). -/
def build_doc_brief (gl_name : String) (reg : GLRegistry) (refs : RefPages) :
    Option String :=
  let canon := reg.resolve_alias gl_name
  let brief0 := refs.brief gl_name
  if brief0 = none ∧ canon ≠ gl_name then refs.brief canon else brief0

/-- The parameter-description table `build_doc` uses, with the same
literal-then-canonical fallback (`build_doc` lines 313–315; the Python
falsiness test on the dict is emptiness). -/
def build_doc_pdesc (gl_name : String) (reg : GLRegistry) (refs : RefPages) :
    List (String × String) :=
  let canon := reg.resolve_alias gl_name
  let pdesc0 := refs.param_descriptions gl_name
  if pdesc0 = [] ∧ canon ≠ gl_name then refs.param_descriptions canon else pdesc0

/-- `reg_params_by_name` of `build_doc` (lines 316–321): registry
parameters of the canonical signature keyed by name. -/
def build_doc_rpbn (gl_name : String) (reg : GLRegistry) :
    List (String × RegParam) :=
  match reg.signature_canonical gl_name with
  | some s => s.2.1.foldl (fun m rp => dictSet m rp.name rp) []
  | none => []

/-- The signature `build_doc` renders (lines 310–312 and 322–328): the
reference store's C signature for the literal name, else (when the
canonical name differs) for the canonical name, else the registry's
canonical signature as (type, name) pairs.  `build_doc` emits a block iff
this is `some`. -/
def build_doc_sig (gl_name : String) (reg : GLRegistry) (refs : RefPages) :
    Option (String × List (String × String)) :=
  let canon := reg.resolve_alias gl_name
  let sig0 := refs.c_signature gl_name
  let sig := if sig0 = none ∧ canon ≠ gl_name then refs.c_signature canon else sig0
  match sig, reg.signature_canonical gl_name with
  | none, none => none
  | none, some s => some (s.1, s.2.1.map (fun p => (p.type, p.name)))
  | some s, _ => some s

/-- The `\brief` line of `build_doc` (lines 331–335): present when the
brief is truthy, with a period appended when missing. -/
def briefLinesOf (brief : Option String) : List String :=
  match brief with
  | none => []
  | some b =>
    if b = "" then []
    else if pyEndsWith b "." then [" * \\brief " ++ b]
    else [" * \\brief " ++ b ++ "."]

/-- The `\param` lines of `build_doc` (lines 336–342): one per distinct
parameter name, first occurrence wins, description and registry trailer
attached by name. -/
def paramLinesOf (pdesc : List (String × String)) (rpbn : List (String × RegParam))
    (params_list : List (String × String)) : List String :=
  (params_list.foldl
    (fun (acc : List String × List String) pp =>
      if pp.2 ∈ acc.2 then acc
      else
        (acc.1 ++ [make_param_line_with_desc pp.2 pp.1 (List.lookup pp.2 pdesc)
            (make_param_trailer_from_reg (List.lookup pp.2 rpbn))],
          acc.2 ++ [pp.2]))
    ([], [])).1

/-- The `\return` line of `build_doc` (lines 343–344): suppressed when the
return type is falsy (empty) or strips to exactly `"void"`. -/
def retLinesOf (ret : String) : List String :=
  if ret ≠ "" ∧ pyStrip ret ≠ "void" then [" * \\return (" ++ ret ++ ")"] else []

/-- The `\note` line of `build_doc` (lines 346–353): version and/or
extension provenance, omitted when neither exists. -/
def noteLinesOf (reg : GLRegistry) (gl_name : String) : List String :=
  let ve := reg.version_or_exts gl_name
  let noteParts :=
    (match ve.1 with
     | some v => if v = "" then [] else ["Introduced in OpenGL " ++ v]
     | none => []) ++
    (if ve.2.isEmpty then []
     else ["Introduced by extension(s): " ++ String.intercalate ", " ve.2])
  if noteParts.isEmpty then [] else [" * \\note " ++ String.intercalate " | " noteParts]

/-- The `lines` list `build_doc` assembles (lines 329–354): opener, brief,
parameter lines, conditional return line, reference link, provenance
note, closer. -/
def buildDocLineList (reg : GLRegistry) (refs : RefPages) (gl_name : String)
    (brief : Option String) (pdesc : List (String × String))
    (rpbn : List (String × RegParam)) (ret : String)
    (params_list : List (String × String)) : List String :=
  ["/**"] ++ briefLinesOf brief ++ paramLinesOf pdesc rpbn params_list ++
    retLinesOf ret ++ [" * \\see " ++ make_refpage_url refs.folder_tag gl_name] ++
    noteLinesOf reg gl_name ++ [" */"]

/-- The `"\n".join(lines)` closing `build_doc` (line 355). -/
def buildDocLines (reg : GLRegistry) (refs : RefPages) (gl_name : String)
    (brief : Option String) (pdesc : List (String × String))
    (rpbn : List (String × RegParam)) (ret : String)
    (params_list : List (String × String)) : String :=
  String.intercalate "\n"
    (buildDocLineList reg refs gl_name brief pdesc rpbn ret params_list)

/-- `build_doc`: merge reference-page and registry information for one
name; `none` exactly when neither source yields a signature (the selection
`build_doc_sig` is `none`). -/
def build_doc (gl_name : String) (reg : GLRegistry) (refs : RefPages) :
    Option String :=
  (build_doc_sig gl_name reg refs).map
    (fun s =>
      buildDocLines reg refs gl_name (build_doc_brief gl_name reg refs)
        (build_doc_pdesc gl_name reg refs) (build_doc_rpbn gl_name reg) s.1 s.2)

/-- Does a rendered docblock contain a `\return` line? -/
def hasReturnLine (doc : String) : Bool :=
  (splitlines doc).any (fun l => pyStartsWith l " * \\return")

/-! ## The in-place rewriter (`process`) -/

/-- The `\s+(glad_gl[A-Za-z0-9_]+)\s*$` tail of `DEFINE_RE` after the first
capture `w1`: require at least one whitespace, take the second maximal word
(which must start with `glad_gl` and extend it), then only whitespace to
the end of the line. -/
def defineSecond (w1 r5 : List Char) : Option (String × String) :=
  let r6 := r5.dropWhile pyIsSpace
  if r6.length < r5.length then
    let w2 := r6.takeWhile isWordAscii
    let r7 := r6.drop w2.length
    if "glad_gl".toList.isPrefixOf w2 && decide (8 ≤ w2.length)
        && (r7.dropWhile pyIsSpace).isEmpty then
      some (String.mk w1, String.mk w2)
    else none
  else none

/-- The `(gl[A-Za-z0-9_]+)` group of `DEFINE_RE`: the maximal word run,
which must start with `gl` and extend it. -/
def defineWords (r4 : List Char) : Option (String × String) :=
  let w1 := r4.takeWhile isWordAscii
  let r5 := r4.drop w1.length
  if "gl".toList.isPrefixOf w1 && decide (3 ≤ w1.length) then defineSecond w1 r5
  else none

/-- The `\s+` after the literal `define`: at least one whitespace character
must be consumed. -/
def defineAfterDefine (r3 : List Char) : Option (String × String) :=
  let r4 := r3.dropWhile pyIsSpace
  if r4.length < r3.length then defineWords r4 else none

/-- The `\s*define` after the `#`. -/
def defineAfterHash (r1 : List Char) : Option (String × String) :=
  let r2 := r1.dropWhile pyIsSpace
  if "define".toList.isPrefixOf r2 then defineAfterDefine (r2.drop 6) else none

/-- `DEFINE_RE.match(line)`:
`^\s*#\s*define\s+(gl[A-Za-z0-9_]+)\s+(glad_gl[A-Za-z0-9_]+)\s*$`, returning
the two capture groups.  Word characters and whitespace are disjoint, so
the regex is deterministic and maximal munch on each `[A-Za-z0-9_]+` is
exact. -/
def defineMatch (line : String) : Option (String × String) :=
  match line.toList.dropWhile pyIsSpace with
  | [] => none
  | c :: r1 => if c ≠ '#' then none else defineAfterHash r1

/-- The first loop of `find_docblock_above`: from index `j` walk upward
over blank lines; `none` models falling off the top of the file. -/
def findNonblankUp (lines : List String) : Nat → Option Nat
  | 0 => if pyStrip (lines.getD 0 "") = "" then none else some 0
  | j + 1 =>
    if pyStrip (lines.getD (j + 1) "") = "" then findNonblankUp lines j
    else some (j + 1)

/-- The second loop of `find_docblock_above`: from index `k` walk upward
while lines are blank or comment-like, succeeding at the first line that
contains `/**`. -/
def scanCommentUp (lines : List String) (e : Nat) : Nat → Option (Nat × Nat)
  | 0 =>
    if strContains (lines.getD 0 "") "/**" then some (0, e) else none
  | k + 1 =>
    let l := lines.getD (k + 1) ""
    if strContains l "/**" then some (k + 1, e)
    else if pyStrip l = "" then scanCommentUp lines e k
    else if strContains l "*/" || pyStartsWith (pyLStrip l) "*"
        || pyStartsWith (pyLStrip l) "/*" then scanCommentUp lines e k
    else none

/-- `find_docblock_above(lines, idx_define)`: the inclusive index range of
a docblock ending at the last nonblank line above the define (which must
contain `*/`) and starting at the nearest enclosing line containing `/**`. -/
def find_docblock_above (lines : List String) (idx_define : Nat) :
    Option (Nat × Nat) :=
  match idx_define with
  | 0 => none
  | j0 + 1 =>
    match findNonblankUp lines j0 with
    | none => none
    | some j =>
      let l := lines.getD j ""
      if ¬ strContains l "*/" then
        if pyStartsWith (pyLStrip l) "/**" ∧ strContains l "*/" then some (j, j)
        else none
      else scanCommentUp lines j j

/-- The pre-scan pass of `process`: the set (as a list) of line indices
marked for removal. -/
def skipSet (src : List String) : List Nat :=
  (List.range src.length).flatMap
    (fun i =>
      if (defineMatch (src.getD i "")).isSome then
        match find_docblock_above src i with
        | some (a, b) => (List.range (b + 1 - a)).map (a + ·)
        | none => []
      else [])

/-- The main pass of `process`: walk the lines with their indices, drop
skipped lines, and emit a freshly built docblock (when synthesis yields
one) immediately before each matching define line. -/
def processLoop (reg : GLRegistry) (refs : RefPages) (skip : List Nat) :
    Nat → List String → List String
  | _, [] => []
  | i, line :: rest =>
    if i ∈ skip then processLoop reg refs skip (i + 1) rest
    else
      match defineMatch line with
      | some m =>
        (build_doc m.1 reg refs).toList ++ line :: processLoop reg refs skip (i + 1) rest
      | none => line :: processLoop reg refs skip (i + 1) rest

/-- `process` without the file I/O: input lines to output lines (an output
element holding a docblock is a multi-line string, as in the source, where
the block is appended to `out_lines` as one string). -/
def processLines (reg : GLRegistry) (refs : RefPages) (src : List String) :
    List String :=
  processLoop reg refs (skipSet src) 0 src

/-- The final `f.write("\n".join(out_lines) + "\n")`. -/
def outputString (out : List String) : String :=
  String.intercalate "\n" out ++ "\n"

/-- One full run of `process`: read (split into lines), rewrite, write. -/
def processRun (reg : GLRegistry) (refs : RefPages) (content : String) : String :=
  outputString (processLines reg refs (splitlines content))

/-! ## Reversed-prefix view of `find_docblock_above`

`find_docblock_above lines i` only inspects `lines[0..i-1]`, scanning
upward; on the reversed prefix `(lines.take i).reverse` both loops become
structural recursions, which the idempotence and adjacency proofs use. -/

/-- The upward comment scan on a reversed prefix: distance (from the scan
start) of the first line containing `/**`, walking only over blank or
comment-like lines. -/
def scanRev : List String → Option Nat
  | [] => none
  | l :: rest =>
    if strContains l "/**" then some 0
    else if pyStrip l = "" then (scanRev rest).map (· + 1)
    else if strContains l "*/" || pyStartsWith (pyLStrip l) "*"
        || pyStartsWith (pyLStrip l) "/*" then (scanRev rest).map (· + 1)
    else none

/-- `find_docblock_above` on the reversed prefix above the define line:
`some (dStart, dEnd)` are distances (0 = the line just above the define)
of the block's first and last line. -/
def fdaRev (rev : List String) : Option (Nat × Nat) :=
  let d := (rev.takeWhile (fun l => pyStrip l = "")).length
  match rev.dropWhile (fun l => pyStrip l = "") with
  | [] => none
  | l :: rest =>
    if ¬ strContains l "*/" then
      if pyStartsWith (pyLStrip l) "/**" ∧ strContains l "*/" then some (d, d)
      else none
    else (scanRev (l :: rest)).map (fun d2 => (d + d2, d))

/-! ## Statement-side views and concrete instances -/

/-- The lines of the docblock built for a name (empty when synthesis
yields nothing). -/
def docLinesOf (reg : GLRegistry) (refs : RefPages) (g : String) : List String :=
  match build_doc g reg refs with
  | some d => splitlines d
  | none => []

/-- The main pass's per-line output when nothing is skipped: the built
docblock (as one multi-line string) before each define line. -/
def lineOut (reg : GLRegistry) (refs : RefPages) (l : String) : List String :=
  match defineMatch l with
  | some m => (build_doc m.1 reg refs).toList ++ [l]
  | none => [l]

/-- Same, with the docblock flattened into its lines (the shape of the
second run's input). -/
def lineExpand (reg : GLRegistry) (refs : RefPages) (l : String) : List String :=
  match defineMatch l with
  | some m => docLinesOf reg refs m.1 ++ [l]
  | none => [l]

/-- A well-formed rendered docblock, as the second-run detection needs it:
at least opener and closer, opener exactly `/**`, closer exactly ` */`,
round-trips through `splitlines`, every line single-line, no line matching
the define pattern, and interior lines that are nonblank
comment-continuation lines not containing `/**`. -/
def goodDoc (doc : String) : Bool :=
  let ls := splitlines doc
  decide (2 ≤ ls.length) && (ls.head? == some "/**") && (ls.getLast? == some " */") &&
  (String.intercalate "\n" ls == doc) && ls.all lineClean &&
  ls.all (fun l => (defineMatch l).isNone) &&
  ((ls.drop 1).dropLast).all
    (fun l => !(strContains l "/**") && !(pyStrip l == "") &&
      pyStartsWith (pyLStrip l) "*")

/-- An empty registry. -/
def regEmpty : GLRegistry := ⟨[], [], [], []⟩

/-- A reference store with no documents. -/
def refsEmpty : RefPages := ⟨"gl4", fun _ => none⟩

/-- A registry whose only command has an empty return type. -/
def regRetEmpty : GLRegistry := ⟨[("glFoo", ⟨"", []⟩)], [], [], []⟩

/-- The spec's end-to-end example registry: `glFoo`, one `GLint` parameter
`x`, no alias, introduced at feature version `4.0`. -/
def regSpecExample : GLRegistry :=
  ⟨[("glFoo", ⟨"void", [⟨"GLint", "x", none, none⟩]⟩)], [], [("glFoo", "4.0")], []⟩

/-- Input on which a first run's removal step exposes comment-like lines
directly above the define line, breaking idempotence. -/
def idemCEsrc : List String :=
  ["/** x */", "y */", "/** old */", "#define glFoo glad_glFoo"]

/-- A docblock separated from its define line by a comment-continuation
line (not blank, not containing `*/`). -/
def adjCE : List String := ["/** b */", " * stray", "#define glFoo glad_glFoo"]

/-- A docblock separated from its define line only by a blank line. -/
def adjDemo : List String := ["/**", " */", "", "#define glA glad_glA"]

/-- A `term` element naming one parameter. -/
def termElem (t : String) : XElem :=
  .mk (dbTag "term") [] none none [.mk (dbTag "parameter") [] (some t) none []]

/-- A description-list entry whose two terms share one description body. -/
def paramEntry (t1 t2 d : String) : XElem :=
  .mk (dbTag "varlistentry") [] none none
    [termElem t1, termElem t2, .mk (dbTag "listitem") [] (some d) none []]

/-- The title element of the parameters section. -/
def paramTitle : XElem := .mk (dbTag "title") [] (some "Parameters") none []

/-- The description list holding one entry. -/
def paramVarlist (t1 t2 d : String) : XElem :=
  .mk (dbTag "variablelist") [] none none [paramEntry t1 t2 d]

/-- A `refsect1` parameters section. -/
def paramSect (t1 t2 d : String) : XElem :=
  .mk (dbTag "refsect1") [] none none [paramTitle, paramVarlist t1 t2 d]

/-- A reference document whose parameters section holds exactly one
two-term entry. -/
def paramDoc (t1 t2 d : String) : XElem :=
  .mk "refentry" [] none none [paramSect t1 t2 d]

/-- A reference store serving `paramDoc` for every name. -/
def paramRefs (t1 t2 d : String) : RefPages :=
  ⟨"gl4", fun _ => some (paramDoc t1 t2 d)⟩

/-- A registry whose alias table is a two-cycle. -/
def regCycle : GLRegistry := ⟨[], [("a", "b"), ("b", "a")], [], []⟩

/-- Number of distinct alias-table keys not yet in `seen`: the variant that
bounds the iterations left in `resolve_alias`'s loop. -/
def remainingKeys (al : List (String × String)) (seen : List String) : Nat :=
  ((al.map Prod.fst).dedup.filter (fun x => x ∉ seen)).length

/-- The separator-prefixed concatenation of a list of strings: the tail
shape of `String.intercalate`'s worker, used to reason about the
`"\n".join` calls. -/
def sTail (s : String) : List String → String
  | [] => ""
  | a :: as => s ++ a ++ sTail s as

/-! # Theorems -/

/-! ## Alias resolution (claims C2, C3) -/

theorem lookup_some_mem_keys {β : Type} {al : List (String × β)} {a : String} {b : β}
    (h : List.lookup a al = some b) : a ∈ al.map Prod.fst := by
  induction al with
  | nil => simp at h
  | cons hd tl ih =>
    obtain ⟨k, v⟩ := hd
    rw [List.lookup_cons] at h
    by_cases hk : a = k
    · simp [hk]
    · rw [show (a == k) = false by simp [hk]] at h
      exact List.mem_cons_of_mem _ (ih h)

theorem filter_notmem_cons_lt (l : List String) :
    ∀ (seen : List String) (cur : String), cur ∈ l → cur ∉ seen →
      (l.filter (fun x => decide (x ∉ cur :: seen))).length <
        (l.filter (fun x => decide (x ∉ seen))).length := by
  induction l with
  | nil => simp
  | cons x xs ih =>
    intro seen cur hmem hns
    by_cases hx : x = cur
    · subst hx
      have h1 : (xs.filter (fun y => decide (y ∉ x :: seen))).length ≤
          (xs.filter (fun y => decide (y ∉ seen))).length := by
        refine List.Sublist.length_le (List.monotone_filter_right _ ?_)
        intro a ha
        simp only [decide_eq_true_eq, List.mem_cons, not_or] at ha ⊢
        exact ha.2
      rw [List.filter_cons, List.filter_cons]
      rw [if_neg (by simp), if_pos (by simpa using hns)]
      simp only [List.length_cons]
      omega
    · have hmem' : cur ∈ xs := by
        cases hmem with
        | head => exact absurd rfl hx
        | tail _ h => exact h
      by_cases hxs : x ∈ seen
      · rw [List.filter_cons, List.filter_cons]
        rw [if_neg (by simp [hxs]), if_neg (by simp [hxs])]
        exact ih seen cur hmem' hns
      · rw [List.filter_cons, List.filter_cons]
        rw [if_pos (by simp [hxs, hx]), if_pos (by simpa using hxs)]
        simp only [List.length_cons]
        have := ih seen cur hmem' hns
        omega

theorem remainingKeys_lt {al : List (String × String)} {seen : List String}
    {cur : String} (hk : cur ∈ al.map Prod.fst) (hs : cur ∉ seen) :
    remainingKeys al (cur :: seen) < remainingKeys al seen :=
  filter_notmem_cons_lt _ seen cur (List.mem_dedup.mpr hk) hs

theorem remainingKeys_nil_le (al : List (String × String)) :
    remainingKeys al [] ≤ al.length := by
  unfold remainingKeys
  calc ((al.map Prod.fst).dedup.filter (fun x => decide (x ∉ ([] : List String)))).length
      ≤ (al.map Prod.fst).dedup.length := List.Sublist.length_le (List.filter_sublist _)
    _ ≤ (al.map Prod.fst).length := List.Sublist.length_le (List.dedup_sublist _)
    _ = al.length := List.length_map _ _

theorem resolveAliasAux_reachable (al : List (String × String)) :
    ∀ (fuel : Nat) (seen : List String) (cur : String),
      Relation.ReflTransGen (fun x y => List.lookup x al = some y) cur
        (resolveAliasAux al fuel seen cur) := by
  intro fuel
  induction fuel with
  | zero => intro seen cur; exact .refl
  | succ n ih =>
    intro seen cur
    rw [resolveAliasAux]
    cases h : List.lookup cur al with
    | none => exact .refl
    | some nxt =>
      by_cases hm : cur ∈ seen
      · simp only [hm, if_true]; exact .refl
      · simp only [hm, if_false]
        exact Relation.ReflTransGen.head h (ih _ _)

theorem resolveAliasAux_stable (al : List (String × String)) :
    ∀ (fuel : Nat) (seen : List String) (cur : String),
      remainingKeys al seen < fuel →
      resolveAliasAux al (fuel + 1) seen cur = resolveAliasAux al fuel seen cur := by
  intro fuel
  induction fuel with
  | zero => intro seen cur h; omega
  | succ n ih =>
    intro seen cur h
    rw [resolveAliasAux, resolveAliasAux]
    cases hl : List.lookup cur al with
    | none => rfl
    | some nxt =>
      by_cases hm : cur ∈ seen
      · simp only [hm, if_true]
      · simp only [hm, if_false]
        have hdec := remainingKeys_lt (lookup_some_mem_keys hl) hm
        exact ih (cur :: seen) nxt (by omega)

theorem resolveAliasAux_stable_add (al : List (String × String)) :
    ∀ (extra fuel : Nat) (seen : List String) (cur : String),
      remainingKeys al seen < fuel →
      resolveAliasAux al (fuel + extra) seen cur = resolveAliasAux al fuel seen cur := by
  intro extra
  induction extra with
  | zero => intro fuel seen cur _; rfl
  | succ n ih =>
    intro fuel seen cur h
    have h1 : fuel + (n + 1) = (fuel + n) + 1 := by omega
    rw [h1, resolveAliasAux_stable al (fuel + n) seen cur (by omega), ih fuel seen cur h]

/-- C3: for every alias table — cyclic ones included — `resolve_alias`
reaches a fixpoint within its fuel (adding fuel does not change the
result, the termination content of the claim), returns a name reachable
from the input by following alias pointers, and returns a name with no
alias entry unchanged. -/
theorem resolve_alias_terminates (reg : GLRegistry) (name : String) :
    Relation.ReflTransGen (fun x y => List.lookup x reg.alias_of = some y) name
        (reg.resolve_alias name)
    ∧ (List.lookup name reg.alias_of = none → reg.resolve_alias name = name)
    ∧ ∀ extra, resolveAliasAux reg.alias_of (reg.alias_of.length + 1 + extra) [] name =
        reg.resolve_alias name := by
  refine ⟨resolveAliasAux_reachable _ _ _ _, ?_, ?_⟩
  · intro h
    unfold GLRegistry.resolve_alias
    rw [resolveAliasAux, h]
  · intro extra
    unfold GLRegistry.resolve_alias
    exact resolveAliasAux_stable_add reg.alias_of extra (reg.alias_of.length + 1) [] name
      (by have := remainingKeys_nil_le reg.alias_of; omega)

theorem resolve_alias_terminates_witness :
    GLRegistry.resolve_alias regCycle "c" = "c" ∧
    Relation.ReflTransGen (fun x y => List.lookup x regCycle.alias_of = some y) "a"
      (GLRegistry.resolve_alias regCycle "a") :=
  ⟨(resolve_alias_terminates regCycle "c").2.1 (by decide),
    (resolve_alias_terminates regCycle "a").1⟩

theorem resolveAliasTrace_fst (al : List (String × String)) :
    ∀ (fuel : Nat) (seen : List String) (cur : String),
      (resolveAliasTrace al fuel seen cur).1 = resolveAliasAux al fuel seen cur := by
  intro fuel
  induction fuel with
  | zero => intro seen cur; rfl
  | succ n ih =>
    intro seen cur
    rw [resolveAliasTrace, resolveAliasAux]
    cases hl : List.lookup cur al with
    | none => rfl
    | some nxt =>
      by_cases hm : cur ∈ seen
      · simp only [hm, if_true]
      · simp only [hm, if_false]; exact ih _ _

theorem resolveAliasTrace_mem (al : List (String × String)) :
    ∀ (fuel : Nat) (seen : List String) (cur : String),
      remainingKeys al seen < fuel →
      (List.lookup (resolveAliasTrace al fuel seen cur).1 al).isSome →
      (resolveAliasTrace al fuel seen cur).1 ∈ (resolveAliasTrace al fuel seen cur).2 := by
  intro fuel
  induction fuel with
  | zero => intro seen cur h; omega
  | succ n ih =>
    intro seen cur h
    rw [resolveAliasTrace]
    cases hl : List.lookup cur al with
    | none => intro habs; simp [hl] at habs
    | some nxt =>
      dsimp only
      by_cases hm : cur ∈ seen
      · rw [if_pos hm]
        intro _; exact hm
      · rw [if_neg hm]
        have hdec := remainingKeys_lt (lookup_some_mem_keys hl) hm
        exact ih (cur :: seen) nxt (by omega)

/-- C2 (amended): when resolution stops because the next name was already
seen — i.e. the returned name still has an alias entry — the returned name
is a member of the seen-set (the first name about to be revisited), though
not necessarily the most recently added one. -/
theorem resolve_alias_cycle_result (reg : GLRegistry) (name : String) :
    (resolveAliasTrace reg.alias_of (reg.alias_of.length + 1) [] name).1 =
      reg.resolve_alias name
    ∧ ((List.lookup (reg.resolve_alias name) reg.alias_of).isSome →
        reg.resolve_alias name ∈
          (resolveAliasTrace reg.alias_of (reg.alias_of.length + 1) [] name).2) := by
  have hfst := resolveAliasTrace_fst reg.alias_of (reg.alias_of.length + 1) [] name
  refine ⟨hfst, ?_⟩
  intro hs
  have hrem : remainingKeys reg.alias_of [] < reg.alias_of.length + 1 := by
    have := remainingKeys_nil_le reg.alias_of; omega
  have := resolveAliasTrace_mem reg.alias_of (reg.alias_of.length + 1) [] name hrem
  rw [hfst] at this
  exact this hs

theorem resolve_alias_cycle_result_witness :
    GLRegistry.resolve_alias regCycle "a" ∈
      (resolveAliasTrace regCycle.alias_of (regCycle.alias_of.length + 1) [] "a").2 :=
  (resolve_alias_cycle_result regCycle "a").2 (by decide)

/-- C2 (counterexample): in the two-cycle `a ↔ b`, resolution from `a`
returns `a` — the first repeated name — while the final new name added to
the seen-set is `b`; the returned name is not the last one added. -/
theorem resolve_alias_last_added_counterexample :
    GLRegistry.resolve_alias regCycle "a" = "a" ∧
    (resolveAliasTrace regCycle.alias_of (regCycle.alias_of.length + 1) [] "a").2.head? =
      some "b" ∧
    ("a" : String) ≠ "b" := by
  refine ⟨by decide, by decide, by decide⟩

/-! ## Feature parsing: lowest version wins (claim C5) -/

theorem lookup_dictSet_self {β : Type} (m : List (String × β)) (k : String) (v : β) :
    List.lookup k (dictSet m k v) = some v := by
  induction m with
  | nil => simp [dictSet, List.lookup_cons]
  | cons hd tl ih =>
    obtain ⟨k', v'⟩ := hd
    rw [dictSet]
    by_cases hk : k' = k
    · rw [if_pos hk, List.lookup_cons]
      simp
    · rw [if_neg hk, List.lookup_cons]
      rw [show (k == k') = false by simp [Ne.symm hk]]
      exact ih

theorem lookup_dictSet_ne {β : Type} (m : List (String × β)) (k k' : String) (v : β)
    (h : k' ≠ k) : List.lookup k' (dictSet m k v) = List.lookup k' m := by
  induction m with
  | nil =>
    simp [dictSet, List.lookup_cons]
    rw [show (k' == k) = false by simp [h]]
  | cons hd tl ih =>
    obtain ⟨k0, v0⟩ := hd
    rw [dictSet]
    by_cases hk : k0 = k
    · rw [if_pos hk, List.lookup_cons, List.lookup_cons, hk]
      rw [show (k' == k) = false by simp [h]]
    · rw [if_neg hk, List.lookup_cons, List.lookup_cons]
      cases hkk : k' == k0 with
      | true => rfl
      | false => exact ih


theorem lookup_featStep_self (intro : List (String × String)) (number nm : String) :
    List.lookup nm (featStep intro number nm) = stepV (List.lookup nm intro) number := by
  rw [featStep, stepV.eq_def]
  cases hl : List.lookup nm intro with
  | none => exact lookup_dictSet_self intro nm number
  | some v =>
    dsimp only
    cases hn : parseVersionTuple number with
    | none =>
      cases hv : parseVersionTuple v with
      | none => exact hl
      | some b => exact hl
    | some a =>
      cases hv : parseVersionTuple v with
      | none => exact hl
      | some b =>
        dsimp only
        by_cases ht : tupLt a b
        · rw [if_pos ht, if_pos ht]
          exact lookup_dictSet_self intro nm number
        · rw [if_neg ht, if_neg ht]
          exact hl

theorem lookup_featStep_ne (intro : List (String × String)) (number nm nm' : String)
    (h : nm ≠ nm') : List.lookup nm (featStep intro number nm') = List.lookup nm intro := by
  rw [featStep]
  cases hl : List.lookup nm' intro with
  | none => exact lookup_dictSet_ne intro nm' nm number h
  | some v =>
    dsimp only
    cases hn : parseVersionTuple number with
    | none =>
      cases hv : parseVersionTuple v with
      | none => rfl
      | some b => rfl
    | some a =>
      cases hv : parseVersionTuple v with
      | none => rfl
      | some b =>
        dsimp only
        by_cases ht : tupLt a b
        · rw [if_pos ht]
          exact lookup_dictSet_ne intro nm' nm number h
        · rw [if_neg ht]

theorem foldV_append (acc : Option String) (xs ys : List String) :
    foldV acc (xs ++ ys) = foldV (foldV acc xs) ys := by
  unfold foldV
  exact List.foldl_append _ _ _ _

theorem lookup_featFold (number : String) (nms : List String) :
    ∀ (intro : List (String × String)) (nm : String),
      List.lookup nm (nms.foldl (fun i n => featStep i number n) intro) =
        foldV (List.lookup nm intro) ((nms.filter (fun x => x = nm)).map (fun _ => number)) := by
  induction nms with
  | nil => intro intro nm; rfl
  | cons n rest ih =>
    intro intro nm
    rw [List.foldl_cons, List.filter_cons]
    by_cases hn : n = nm
    · rw [if_pos (by simpa using hn), List.map_cons]
      rw [ih (featStep intro number n) nm]
      subst hn
      rw [lookup_featStep_self]
      rfl
    · rw [if_neg (by simpa using hn)]
      rw [ih (featStep intro number n) nm]
      rw [lookup_featStep_ne intro number nm n (fun he => hn he.symm)]

theorem lookup_parse_features_from (nm : String) (feats : List (String × String × List String)) :
    ∀ (intro : List (String × String)),
      List.lookup nm
          (feats.foldl
            (fun intro f =>
              if f.1 ≠ "gl" then intro
              else if f.2.1 = "" then intro
              else f.2.2.foldl (fun intro nm => featStep intro f.2.1 nm) intro)
            intro) =
        foldV (List.lookup nm intro) (numbersFor nm feats) := by
  induction feats with
  | nil => intro intro; rfl
  | cons f rest ih =>
    intro intro
    rw [List.foldl_cons]
    rw [show numbersFor nm (f :: rest) =
      (if f.1 ≠ "gl" then []
       else if f.2.1 = "" then []
       else (f.2.2.filter (fun x => x = nm)).map (fun _ => f.2.1)) ++ numbersFor nm rest
      from by rw [numbersFor, List.flatMap_cons]; rfl]
    rw [foldV_append]
    by_cases hapi : f.1 ≠ "gl"
    · rw [if_pos hapi, if_pos hapi]
      exact ih intro
    · rw [if_neg hapi, if_neg hapi]
      by_cases hnum : f.2.1 = ""
      · rw [if_pos hnum, if_pos hnum]
        exact ih intro
      · rw [if_neg hnum, if_neg hnum]
        rw [ih _]
        rw [lookup_featFold]

theorem lookup_parse_features (nm : String) (feats : List (String × String × List String)) :
    List.lookup nm (parse_features feats) = foldV none (numbersFor nm feats) := by
  have := lookup_parse_features_from nm feats []
  rw [parse_features]
  simpa using this

theorem tupLt_trans (a : List Int) :
    ∀ b c, tupLt a b = true → tupLt b c = true → tupLt a c = true := by
  induction a with
  | nil =>
    intro b c hab hbc
    cases b with
    | nil => simp [tupLt] at hab
    | cons y ys =>
      cases c with
      | nil => simp [tupLt] at hbc
      | cons z zs => simp [tupLt]
  | cons x xs ih =>
    intro b c hab hbc
    cases b with
    | nil => simp [tupLt] at hab
    | cons y ys =>
      cases c with
      | nil => simp [tupLt] at hbc
      | cons z zs =>
        rw [tupLt] at hab hbc ⊢
        by_cases hxy : x < y
        · by_cases hyz : y < z
          · rw [if_pos (by omega)]
          · rw [if_neg hyz] at hbc
            by_cases hzy : z < y
            · rw [if_pos hzy] at hbc; exact absurd hbc (by simp)
            · rw [if_pos (by omega)]
        · rw [if_neg hxy] at hab
          by_cases hyx : y < x
          · rw [if_pos hyx] at hab; exact absurd hab (by simp)
          · rw [if_neg hyx] at hab
            have hxy' : x = y := by omega
            subst hxy'
            by_cases hyz : x < z
            · rw [if_pos hyz]
            · rw [if_neg hyz] at hbc ⊢
              by_cases hzy : z < x
              · rw [if_pos hzy] at hbc; exact absurd hbc (by simp)
              · rw [if_neg hzy] at hbc ⊢
                exact ih ys zs hab hbc

theorem tupLt_irrefl (a : List Int) : tupLt a a = false := by
  induction a with
  | nil => rfl
  | cons x xs ih =>
    rw [tupLt, if_neg (by omega), if_neg (by omega)]
    exact ih

theorem tupLt_total (a : List Int) :
    ∀ b, tupLt a b = false → a = b ∨ tupLt b a = true := by
  induction a with
  | nil =>
    intro b h
    cases b with
    | nil => exact Or.inl rfl
    | cons y ys => simp [tupLt] at h
  | cons x xs ih =>
    intro b h
    cases b with
    | nil => exact Or.inr rfl
    | cons y ys =>
      rw [tupLt] at h
      by_cases hxy : x < y
      · rw [if_pos hxy] at h; exact absurd h (by simp)
      · rw [if_neg hxy] at h
        by_cases hyx : y < x
        · refine Or.inr ?_
          rw [tupLt, if_pos hyx]
        · rw [if_neg hyx] at h
          have hxe : x = y := by omega
          subst hxe
          rcases ih ys h with h1 | h1
          · exact Or.inl (by rw [h1])
          · refine Or.inr ?_
            rw [tupLt, if_neg (by omega), if_neg (by omega)]
            exact h1

theorem foldV_some_min (nums : List String) :
    ∀ (v0 : String), (parseVersionTuple v0).isSome →
      (∀ n ∈ nums, (parseVersionTuple n).isSome) →
      ∃ v, foldV (some v0) nums = some v ∧ (v = v0 ∨ v ∈ nums) ∧
        (parseVersionTuple v).isSome ∧
        (∀ tu tv, parseVersionTuple v0 = some tu → parseVersionTuple v = some tv →
          tupLt tu tv = false) ∧
        (∀ u ∈ nums, ∀ tu tv, parseVersionTuple u = some tu →
          parseVersionTuple v = some tv → tupLt tu tv = false) := by
  induction nums with
  | nil =>
    intro v0 h0 _
    refine ⟨v0, rfl, Or.inl rfl, h0, ?_, by simp⟩
    intro tu tv h1 h2
    rw [h1] at h2
    cases h2
    exact tupLt_irrefl tu
  | cons n rest ih =>
    intro v0 h0 hall
    have hn : (parseVersionTuple n).isSome := hall n (by simp)
    obtain ⟨tn, htn⟩ := Option.isSome_iff_exists.mp hn
    obtain ⟨t0, ht0⟩ := Option.isSome_iff_exists.mp h0
    rw [show foldV (some v0) (n :: rest) = foldV (stepV (some v0) n) rest from rfl]
    rw [show stepV (some v0) n =
        (if tupLt tn t0 then some n else some v0) from by
      simp only [stepV, htn, ht0]]
    by_cases hlt : tupLt tn t0
    · rw [if_pos hlt]
      obtain ⟨v, hv1, hv2, hv3, hv4, hv5⟩ := ih n hn (fun u hu => hall u (by simp [hu]))
      refine ⟨v, hv1, ?_, hv3, ?_, ?_⟩
      · rcases hv2 with h | h
        · exact Or.inr (by simp [h])
        · exact Or.inr (by simp [h])
      · intro tu tv h1 h2
        rw [ht0] at h1
        cases h1
        have hf := hv4 tn tv htn h2
        cases hq : tupLt t0 tv with
        | false => rfl
        | true => exact absurd (tupLt_trans tn t0 tv hlt hq) (by simp [hf])
      · intro u hu tu tv h1 h2
        rcases List.mem_cons.mp hu with h | h
        · subst h
          rw [htn] at h1
          cases h1
          exact hv4 tn tv htn h2
        · exact hv5 u h tu tv h1 h2
    · rw [if_neg hlt]
      obtain ⟨v, hv1, hv2, hv3, hv4, hv5⟩ := ih v0 h0 (fun u hu => hall u (by simp [hu]))
      refine ⟨v, hv1, ?_, hv3, hv4, ?_⟩
      · rcases hv2 with h | h
        · exact Or.inl h
        · exact Or.inr (by simp [h])
      · intro u hu tu tv h1 h2
        rcases List.mem_cons.mp hu with h | h
        · subst h
          rw [htn] at h1
          cases h1
          have hv0 := hv4 t0 tv ht0 h2
          cases hq : tupLt tn tv with
          | false => rfl
          | true =>
            rcases tupLt_total tn t0 (by simpa using hlt) with he0 | he0
            · rw [he0] at hq
              exact absurd hq (by simp [hv0])
            · exact absurd (tupLt_trans t0 tn tv he0 hq) (by simp [hv0])
        · exact hv5 u h tu tv h1 h2

theorem foldV_none_first (rest : List String) :
    ∀ (u : String), parseVersionTuple u = none → foldV (some u) rest = some u := by
  induction rest with
  | nil => intro u _; rfl
  | cons n rs ih =>
    intro u hu
    rw [show foldV (some u) (n :: rs) = foldV (stepV (some u) n) rs from rfl]
    rw [show stepV (some u) n = some u from by
      simp only [stepV, hu]
      cases hn : parseVersionTuple n <;> rfl]
    exact ih u hu

/-- C5: when a command is required by several `api="gl"` feature blocks,
the retained version is a numerically (component-wise, tuple-order) lowest
of the parseable versions that reach it, regardless of block order; an
unparseable version never displaces the stored value, but is kept when it
is the first value seen; and `version_or_exts` reports the stored value
when the literal name has one. -/
theorem parse_features_lowest_version :
    (∀ (feats : List (String × String × List String)) (nm : String),
      numbersFor nm feats ≠ [] →
      (∀ n ∈ numbersFor nm feats, (parseVersionTuple n).isSome) →
      ∃ v, List.lookup nm (parse_features feats) = some v ∧
        v ∈ numbersFor nm feats ∧
        ∀ u ∈ numbersFor nm feats, ∀ tu tv, parseVersionTuple u = some tu →
          parseVersionTuple v = some tv → tupLt tu tv = false)
    ∧ (∀ (feats : List (String × String × List String)) (nm u : String)
        (rest : List String), numbersFor nm feats = u :: rest →
        parseVersionTuple u = none →
        List.lookup nm (parse_features feats) = some u)
    ∧ (∀ (reg : GLRegistry) (nm v : String),
        List.lookup nm reg.introduced_version = some v →
        (reg.version_or_exts nm).1 = some v) := by
  refine ⟨?_, ?_, ?_⟩
  · intro feats nm hne hall
    rw [lookup_parse_features]
    cases hns : numbersFor nm feats with
    | nil => exact absurd hns hne
    | cons n rest =>
      rw [hns] at hall
      have hn : (parseVersionTuple n).isSome := hall n (by simp)
      rw [show foldV none (n :: rest) = foldV (some n) rest from rfl]
      obtain ⟨v, hv1, hv2, hv3, hv4, hv5⟩ :=
        foldV_some_min rest n hn (fun u hu => hall u (by simp [hu]))
      refine ⟨v, hv1, ?_, ?_⟩
      · rcases hv2 with h | h
        · simp [h]
        · simp [h]
      · intro u hu tu tv h1 h2
        rcases List.mem_cons.mp hu with h | h
        · subst h
          exact hv4 tu tv h1 h2
        · exact hv5 u h tu tv h1 h2
  · intro feats nm u rest hns hu
    rw [lookup_parse_features, hns]
    rw [show foldV none (u :: rest) = foldV (some u) rest from rfl]
    exact foldV_none_first rest u hu
  · intro reg nm v h
    rw [GLRegistry.version_or_exts, h]

theorem parse_features_lowest_version_witness :
    (∃ v, List.lookup "glX"
        (parse_features [("gl", "1.0", ["glX"]), ("gl", "3.3", ["glX"])]) = some v ∧
      v ∈ numbersFor "glX" [("gl", "1.0", ["glX"]), ("gl", "3.3", ["glX"])] ∧
      ∀ u ∈ numbersFor "glX" [("gl", "1.0", ["glX"]), ("gl", "3.3", ["glX"])],
        ∀ tu tv, parseVersionTuple u = some tu → parseVersionTuple v = some tv →
          tupLt tu tv = false) ∧
    List.lookup "glX"
        (parse_features [("gl", "3.3", ["glX"]), ("gl", "1.0", ["glX"])]) = some "1.0" ∧
    List.lookup "glX"
        (parse_features [("gl", "abc", ["glX"]), ("gl", "1.0", ["glX"])]) = some "abc" :=
  ⟨parse_features_lowest_version.1 [("gl", "1.0", ["glX"]), ("gl", "3.3", ["glX"])] "glX"
      (by decide) (by decide),
    by decide,
    parse_features_lowest_version.2.1 [("gl", "abc", ["glX"]), ("gl", "1.0", ["glX"])]
      "glX" "abc" ["1.0"] (by decide) (by decide)⟩

/-! ## Docblock synthesis: emit-nothing condition (claim C8) -/

theorem build_doc_sig_none_iff (gl_name : String) (reg : GLRegistry) (refs : RefPages) :
    build_doc_sig gl_name reg refs = none ↔
      refs.c_signature gl_name = none ∧
      refs.c_signature (reg.resolve_alias gl_name) = none ∧
      reg.signature_canonical gl_name = none := by
  cases hs0 : refs.c_signature gl_name with
  | some s =>
    cases hr : reg.signature_canonical gl_name <;>
      simp [build_doc_sig, hs0, hr]
  | none =>
    by_cases hcd : reg.resolve_alias gl_name = gl_name
    · cases hr : reg.signature_canonical gl_name <;>
        simp [build_doc_sig, hs0, hcd, hr]
    · cases hs1 : refs.c_signature (reg.resolve_alias gl_name) with
      | some s =>
        cases hr : reg.signature_canonical gl_name <;>
          simp [build_doc_sig, hs0, hs1, hcd, hr]
      | none =>
        cases hr : reg.signature_canonical gl_name <;>
          simp [build_doc_sig, hs0, hs1, hcd, hr]

/-- C8: `build_doc` emits nothing exactly when the reference store has no
C signature for the literal name nor for the canonical name and the
registry has no signature for the canonical name; with any signature
available a block is emitted. -/
theorem build_doc_none_iff (gl_name : String) (reg : GLRegistry) (refs : RefPages) :
    build_doc gl_name reg refs = none ↔
      refs.c_signature gl_name = none ∧
      refs.c_signature (reg.resolve_alias gl_name) = none ∧
      reg.signature_canonical gl_name = none := by
  rw [build_doc, Option.map_eq_none']
  exact build_doc_sig_none_iff gl_name reg refs

theorem build_doc_none_iff_witness :
    build_doc "glFoo" regEmpty refsEmpty = none ∧
    build_doc "glFoo" regSpecExample refsEmpty ≠ none :=
  ⟨(build_doc_none_iff "glFoo" regEmpty refsEmpty).mpr ⟨rfl, rfl, rfl⟩,
    fun h => by
      have h2 := (build_doc_none_iff "glFoo" regSpecExample refsEmpty).mp h
      exact absurd h2.2.2 (by decide)⟩

/-! ## The return line (claim C4) -/

theorem isPrefixOf_return_cons (c : Char) (rest : List Char) (h : c ≠ 'r') :
    (" * \\return".toList).isPrefixOf (' ' :: '*' :: ' ' :: '\\' :: c :: rest) = false := by
  rw [show " * \\return".toList = [' ', '*', ' ', '\\', 'r', 'e', 't', 'u', 'r', 'n'] from rfl]
  simp only [List.isPrefixOf]
  rw [show ('r' == c) = false from by
    rw [beq_eq_false_iff_ne]
    exact fun he => h he.symm]
  simp

theorem pyStartsWith_return_param (pname ptype : String) (desc : Option String)
    (trailer : String) :
    pyStartsWith (make_param_line_with_desc pname ptype desc trailer) " * \\return" = false := by
  have key : ∀ (t : String),
      pyStartsWith (" * \\param " ++ t) " * \\return" = false := by
    intro t
    rw [pyStartsWith]
    rw [show (" * \\param " ++ t).toList =
      ' ' :: '*' :: ' ' :: '\\' :: 'p' :: ("aram " ++ t).toList from String.data_append _ _]
    exact isPrefixOf_return_cons 'p' _ (by decide)
  rw [make_param_line_with_desc.eq_def]
  cases desc with
  | none =>
    rw [show " * \\param " ++ pname ++ " (" ++ ptype ++ ")" ++ trailer =
      " * \\param " ++ (pname ++ " (" ++ ptype ++ ")" ++ trailer) from by
        simp [String.append_assoc]]
    exact key _
  | some d =>
    dsimp only
    by_cases hd : d = ""
    · rw [if_pos hd]
      rw [show " * \\param " ++ pname ++ " (" ++ ptype ++ ")" ++ trailer =
        " * \\param " ++ (pname ++ " (" ++ ptype ++ ")" ++ trailer) from by
          simp [String.append_assoc]]
      exact key _
    · rw [if_neg hd]
      rw [show " * \\param " ++ pname ++ " (" ++ ptype ++ ") - " ++ d ++ trailer =
        " * \\param " ++ (pname ++ " (" ++ ptype ++ ") - " ++ d ++ trailer) from by
          simp [String.append_assoc]]
      exact key _

theorem paramFold_no_return (pdesc : List (String × String))
    (rpbn : List (String × RegParam)) (params_list : List (String × String)) :
    ∀ (acc : List String × List String),
      (∀ l ∈ acc.1, pyStartsWith l " * \\return" = false) →
      ∀ l ∈ (params_list.foldl
          (fun (acc : List String × List String) pp =>
            if pp.2 ∈ acc.2 then acc
            else
              (acc.1 ++ [make_param_line_with_desc pp.2 pp.1 (List.lookup pp.2 pdesc)
                  (make_param_trailer_from_reg (List.lookup pp.2 rpbn))],
                acc.2 ++ [pp.2]))
          acc).1,
        pyStartsWith l " * \\return" = false := by
  induction params_list with
  | nil => intro acc hacc; exact hacc
  | cons pp rest ih =>
    intro acc hacc
    rw [List.foldl_cons]
    by_cases hmem : pp.2 ∈ acc.2
    · rw [if_pos hmem]
      exact ih acc hacc
    · rw [if_neg hmem]
      refine ih _ ?_
      intro l hl
      rcases List.mem_append.mp hl with h | h
      · exact hacc l h
      · rw [List.mem_singleton.mp h]
        exact pyStartsWith_return_param _ _ _ _

theorem briefLinesOf_no_return (brief : Option String) :
    (briefLinesOf brief).any (fun l => pyStartsWith l " * \\return") = false := by
  rw [briefLinesOf.eq_def]
  cases brief with
  | none => rfl
  | some b =>
    dsimp only
    by_cases hb : b = ""
    · rw [if_pos hb]; rfl
    · rw [if_neg hb]
      by_cases he : pyEndsWith b "."
      · rw [if_pos he]
        simp only [List.any_cons, List.any_nil, Bool.or_false]
        rw [pyStartsWith]
        rw [show (" * \\brief " ++ b).toList =
          ' ' :: '*' :: ' ' :: '\\' :: 'b' :: ("rief " ++ b).toList from
          String.data_append _ _]
        exact isPrefixOf_return_cons 'b' _ (by decide)
      · rw [if_neg he]
        simp only [List.any_cons, List.any_nil, Bool.or_false]
        rw [pyStartsWith]
        rw [show (" * \\brief " ++ b ++ ".").toList =
          ' ' :: '*' :: ' ' :: '\\' :: 'b' :: ("rief " ++ b ++ ".").toList from by
          rw [show " * \\brief " ++ b ++ "." = " * \\brief " ++ (b ++ ".") from by
            simp [String.append_assoc]]
          exact String.data_append _ _]
        exact isPrefixOf_return_cons 'b' _ (by decide)

theorem noteLinesOf_no_return (reg : GLRegistry) (gl_name : String) :
    (noteLinesOf reg gl_name).any (fun l => pyStartsWith l " * \\return") = false := by
  rw [noteLinesOf]
  set parts := (match (reg.version_or_exts gl_name).1 with
      | some v => if v = "" then [] else ["Introduced in OpenGL " ++ v]
      | none => ([] : List String)) ++
      (if (reg.version_or_exts gl_name).2.isEmpty then []
       else ["Introduced by extension(s): " ++
          String.intercalate ", " (reg.version_or_exts gl_name).2]) with hp
  by_cases hq : parts.isEmpty
  · rw [if_pos hq]; rfl
  · rw [if_neg hq]
    simp only [List.any_cons, List.any_nil, Bool.or_false]
    rw [pyStartsWith]
    rw [show (" * \\note " ++ String.intercalate " | " parts).toList =
      ' ' :: '*' :: ' ' :: '\\' :: 'n' ::
        ("ote " ++ String.intercalate " | " parts).toList from
      String.data_append _ _]
    exact isPrefixOf_return_cons 'n' _ (by decide)

theorem retLinesOf_any (ret : String) :
    (retLinesOf ret).any (fun l => pyStartsWith l " * \\return")
      = (decide (ret ≠ "") && decide (pyStrip ret ≠ "void")) := by
  rw [retLinesOf]
  by_cases hc : ret ≠ "" ∧ pyStrip ret ≠ "void"
  · rw [if_pos hc]
    simp only [List.any_cons, List.any_nil, Bool.or_false]
    rw [show (decide (ret ≠ "") && decide (pyStrip ret ≠ "void")) = true from by
      simp [hc.1, hc.2]]
    rw [pyStartsWith]
    have hsplit : (" * \\return (" ++ ret ++ ")").toList =
        " * \\return".toList ++ ((" (" ++ ret ++ ")").toList) := by
      rw [show (" * \\return (" ++ ret ++ ")").toList =
        (" * \\return (" ++ ret).toList ++ ")".toList from String.data_append _ _]
      rw [show (" * \\return (" ++ ret).toList =
        " * \\return (".toList ++ ret.toList from String.data_append _ _]
      rw [show (" (" ++ ret ++ ")").toList =
        (" (" ++ ret).toList ++ ")".toList from String.data_append _ _]
      rw [show (" (" ++ ret).toList = " (".toList ++ ret.toList from String.data_append _ _]
      rw [show (" * \\return (".toList : List Char) =
        " * \\return".toList ++ " (".toList from by decide]
      simp [List.append_assoc]
    rw [hsplit, List.isPrefixOf_iff_prefix]
    exact List.prefix_append _ _
  · rw [if_neg hc]
    rw [show (decide (ret ≠ "") && decide (pyStrip ret ≠ "void")) = false from by
      rcases not_and_or.mp hc with h | h <;> simp [not_not.mp h]]
    rfl

/-- C4 (amended): in the assembled docblock line list, a `\return` line is
present iff the selected return type is nonempty and does not strip to
exactly `"void"`; and when `build_doc_sig` selects `(ret, ps)`, `build_doc`
emits exactly the join of that line list. -/
theorem return_line_iff (gl_name : String) (reg : GLRegistry) (refs : RefPages)
    (ret : String) (ps : List (String × String))
    (h : build_doc_sig gl_name reg refs = some (ret, ps)) :
    build_doc gl_name reg refs =
      some (String.intercalate "\n"
        (buildDocLineList reg refs gl_name (build_doc_brief gl_name reg refs)
          (build_doc_pdesc gl_name reg refs) (build_doc_rpbn gl_name reg) ret ps)) ∧
    (buildDocLineList reg refs gl_name (build_doc_brief gl_name reg refs)
        (build_doc_pdesc gl_name reg refs) (build_doc_rpbn gl_name reg) ret ps).any
      (fun l => pyStartsWith l " * \\return")
      = (decide (ret ≠ "") && decide (pyStrip ret ≠ "void")) := by
  constructor
  · rw [build_doc, h]
    rfl
  · rw [buildDocLineList]
    simp only [List.any_append, List.any_cons, List.any_nil]
    have h0 : pyStartsWith "/**" " * \\return" = false := by decide
    have hcl : pyStartsWith " */" " * \\return" = false := by decide
    have hpl : (paramLinesOf (build_doc_pdesc gl_name reg refs)
        (build_doc_rpbn gl_name reg) ps).any
        (fun l => pyStartsWith l " * \\return") = false := by
      rw [List.any_eq_false]
      intro l hl
      simp only [Bool.not_eq_true]
      exact paramFold_no_return _ _ ps ([], []) (by simp) l hl
    have hsee : pyStartsWith (" * \\see " ++ make_refpage_url refs.folder_tag gl_name)
        " * \\return" = false := by
      rw [pyStartsWith]
      rw [show (" * \\see " ++ make_refpage_url refs.folder_tag gl_name).toList =
        ' ' :: '*' :: ' ' :: '\\' :: 's' ::
          ("ee " ++ make_refpage_url refs.folder_tag gl_name).toList from
        String.data_append _ _]
      exact isPrefixOf_return_cons 's' _ (by decide)
    rw [h0, hcl, hpl, hsee, briefLinesOf_no_return, noteLinesOf_no_return,
      retLinesOf_any]
    simp

theorem return_line_iff_witness :
    build_doc "glFoo" regSpecExample refsEmpty =
      some (String.intercalate "\n"
        (buildDocLineList regSpecExample refsEmpty "glFoo"
          (build_doc_brief "glFoo" regSpecExample refsEmpty)
          (build_doc_pdesc "glFoo" regSpecExample refsEmpty)
          (build_doc_rpbn "glFoo" regSpecExample) "void" [("GLint", "x")])) ∧
    (buildDocLineList regSpecExample refsEmpty "glFoo"
        (build_doc_brief "glFoo" regSpecExample refsEmpty)
        (build_doc_pdesc "glFoo" regSpecExample refsEmpty)
        (build_doc_rpbn "glFoo" regSpecExample) "void" [("GLint", "x")]).any
      (fun l => pyStartsWith l " * \\return")
      = (decide (("void" : String) ≠ "") && decide (pyStrip "void" ≠ "void")) :=
  return_line_iff "glFoo" regSpecExample refsEmpty "void" [("GLint", "x")] (by decide)

/-- C4 (counterexample): a registry command whose return type is the empty
string — different from `"void"` — still yields a docblock without a
`\return` line: the code also suppresses the line for falsy (empty) return
types, not only for `"void"`. -/
theorem return_line_counterexample :
    build_doc_sig "glFoo" regRetEmpty refsEmpty = some ("", []) ∧
    ("" : String) ≠ "void" ∧
    (build_doc "glFoo" regRetEmpty refsEmpty).map hasReturnLine = some false := by
  refine ⟨by decide, by decide, by decide⟩

/-! ## Parameter description fan-out (claim C7) -/

theorem paramEntry_termNames (t1 t2 d : String) (h1 : t1 ≠ "") (h2 : t2 ≠ "")
    (hs1 : pyStrip t1 = t1) (hs2 : pyStrip t2 = t2) :
    termNames (paramEntry t1 t2 d) = [t1, t2] := by
  rw [show termNames (paramEntry t1 t2 d) =
    List.foldl (fun ts t =>
      match pyOrStr (findtextChild t (dbTag "parameter")) (findtextChild t "parameter") with
      | none => ts
      | some p => if p = "" then ts else ts ++ [pyStrip p]) [] [termElem t1, termElem t2]
    from rfl]
  rw [List.foldl_cons]
  rw [show pyOrStr (findtextChild (termElem t1) (dbTag "parameter"))
      (findtextChild (termElem t1) "parameter") = if t1 = "" then none else some t1
    from rfl]
  rw [if_neg h1]
  dsimp only
  rw [if_neg h1, hs1]
  rw [List.foldl_cons]
  rw [show pyOrStr (findtextChild (termElem t2) (dbTag "parameter"))
      (findtextChild (termElem t2) "parameter") = if t2 = "" then none else some t2
    from rfl]
  rw [if_neg h2]
  dsimp only
  rw [if_neg h2, hs2]
  rfl

theorem param_descriptions_paramDoc (t1 t2 d : String)
    (h1 : t1 ≠ "") (h2 : t2 ≠ "") (hs1 : pyStrip t1 = t1) (hs2 : pyStrip t2 = t2)
    (hd : norm_ws d ≠ "") :
    RefPages.param_descriptions (paramRefs t1 t2 d) "glAny" =
      dictSet (dictSet [] t1 (norm_ws d)) t2 (norm_ws d) := by
  rw [show RefPages.param_descriptions (paramRefs t1 t2 d) "glAny" =
    entryUpdate [] (paramEntry t1 t2 d) from rfl]
  rw [entryUpdate]
  rw [paramEntry_termNames t1 t2 d h1 h2 hs1 hs2]
  rw [if_neg (by simp)]
  rw [show (match findChild (paramEntry t1 t2 d) (dbTag "listitem") with
      | some l => some l
      | none => findChild (paramEntry t1 t2 d) "listitem") =
      some (XElem.mk (dbTag "listitem") [] (some d) none []) from rfl]
  dsimp only
  rw [show flatten_text (XElem.mk (dbTag "listitem") [] (some d) none []) = d ++ ""
    from rfl]
  rw [String.append_empty]
  rw [List.foldl_cons, if_neg hd, List.foldl_cons, if_neg hd, List.foldl_nil]

/-- C7: a description-list entry of the parameters section whose terms
name two parameters and whose description body is one non-empty prose text
maps both parameter names to identical (equal) description text in the
returned mapping. -/
theorem param_descriptions_fanout (t1 t2 d : String)
    (h1 : t1 ≠ "") (h2 : t2 ≠ "") (hs1 : pyStrip t1 = t1) (hs2 : pyStrip t2 = t2)
    (hd : norm_ws d ≠ "") :
    List.lookup t1 (RefPages.param_descriptions (paramRefs t1 t2 d) "glAny")
        = some (norm_ws d) ∧
    List.lookup t2 (RefPages.param_descriptions (paramRefs t1 t2 d) "glAny")
        = some (norm_ws d) := by
  rw [param_descriptions_paramDoc t1 t2 d h1 h2 hs1 hs2 hd]
  by_cases he : t1 = t2
  · subst he
    exact ⟨lookup_dictSet_self _ _ _, lookup_dictSet_self _ _ _⟩
  · exact ⟨by rw [lookup_dictSet_ne _ t2 t1 _ he, lookup_dictSet_self],
      lookup_dictSet_self _ _ _⟩

theorem param_descriptions_fanout_witness :
    List.lookup "a" (RefPages.param_descriptions (paramRefs "a" "b" " the  desc ") "glAny")
        = some (norm_ws " the  desc ") ∧
    List.lookup "b" (RefPages.param_descriptions (paramRefs "a" "b" " the  desc ") "glAny")
        = some (norm_ws " the  desc ") :=
  param_descriptions_fanout "a" "b" " the  desc " (by decide) (by decide) (by decide)
    (by decide) (by decide)

/-! ## Main pass frame property (claim C9) -/

theorem processLoop_eq_flatMap (reg : GLRegistry) (refs : RefPages) (skip : List Nat)
    (ls : List String) : ∀ (i : Nat),
    processLoop reg refs skip i ls =
      (List.enumFrom i ls).flatMap
        (fun p => if p.1 ∈ skip then [] else lineOut reg refs p.2) := by
  induction ls with
  | nil => intro i; rfl
  | cons l rest ih =>
    intro i
    rw [processLoop, List.enumFrom_cons, List.flatMap_cons]
    by_cases hm : i ∈ skip
    · rw [if_pos hm]
      dsimp only
      rw [if_pos hm, List.nil_append]
      exact ih (i + 1)
    · rw [if_neg hm]
      dsimp only
      rw [if_neg hm, lineOut.eq_def]
      cases hd : defineMatch l with
      | some m =>
        dsimp only
        rw [ih (i + 1)]
        simp
      | none =>
        dsimp only
        rw [ih (i + 1)]
        simp

/-- C9: the main pass drops exactly the marked lines; every line not
marked for removal — define lines included — appears in the output
unchanged and in its original relative order (the non-marked input lines
form a sublist of the output), and each matching define line is emitted
preceded by the synthesized block exactly when synthesis produced one
(the `lineOut` shape of the flat-map characterization). -/
theorem main_pass_frame (reg : GLRegistry) (refs : RefPages) (skip : List Nat)
    (i : Nat) (ls : List String) :
    processLoop reg refs skip i ls =
      (List.enumFrom i ls).flatMap
        (fun p => if p.1 ∈ skip then [] else lineOut reg refs p.2) ∧
    (((List.enumFrom i ls).filter (fun p => decide (p.1 ∉ skip))).map Prod.snd).Sublist
      (processLoop reg refs skip i ls) := by
  refine ⟨processLoop_eq_flatMap reg refs skip ls i, ?_⟩
  induction ls generalizing i with
  | nil => simp [processLoop]
  | cons l rest ih =>
    rw [processLoop, List.enumFrom_cons, List.filter_cons]
    by_cases hm : i ∈ skip
    · rw [if_pos hm, if_neg (by simpa using hm)]
      exact ih (i + 1)
    · rw [if_neg hm, if_pos (by simpa using hm)]
      rw [List.map_cons]
      cases hd : defineMatch l with
      | some m =>
        dsimp only
        refine List.Sublist.trans (List.Sublist.cons₂ l (ih (i + 1))) ?_
        exact List.sublist_append_right _ _
      | none =>
        dsimp only
        exact List.Sublist.cons₂ l (ih (i + 1))

/-! ## The define pattern also matches internal names (claim C10) -/

theorem takeWhile_append_all {p : Char → Bool} (l1 l2 : List Char)
    (h : ∀ c ∈ l1, p c = true) :
    (l1 ++ l2).takeWhile p = l1 ++ l2.takeWhile p := by
  rw [List.takeWhile_append,
    if_pos (by rw [List.takeWhile_eq_self_iff.mpr h])]

theorem isPrefixOf_append_self (p t : List Char) : p.isPrefixOf (p ++ t) = true := by
  rw [List.isPrefixOf_iff_prefix]
  exact List.prefix_append _ _

theorem string_toList_append (a b : String) : (a ++ b).toList = a.toList ++ b.toList :=
  String.data_append a b

theorem defineAfterHash_define (T : List Char) :
    defineAfterHash ('d' :: 'e' :: 'f' :: 'i' :: 'n' :: 'e' :: ' ' :: T) =
      defineAfterDefine (' ' :: T) := by
  simp only [defineAfterHash]
  rw [List.dropWhile_cons_of_neg (by decide)]
  rw [(show ∀ t : List Char, 'd' :: 'e' :: 'f' :: 'i' :: 'n' :: 'e' :: t = "define".toList ++ t
    from fun _ => rfl)]
  rw [isPrefixOf_append_self, if_pos rfl]
  rw [List.drop_left' (by decide)]

theorem defineAfterDefine_space (T : List Char) :
    defineAfterDefine (' ' :: ("glad_gl".toList ++ T)) =
      defineWords ("glad_gl".toList ++ T) := by
  simp only [defineAfterDefine]
  rw [List.dropWhile_cons_of_pos (by decide)]
  rw [show List.dropWhile pyIsSpace ("glad_gl".toList ++ T) = "glad_gl".toList ++ T
    from List.dropWhile_cons_of_neg (by decide)]
  rw [if_pos (by simp)]

theorem defineWords_glad (X : String) (R : List Char)
    (hX : ∀ c ∈ X.toList, isWordAscii c = true) :
    defineWords (("glad_gl".toList ++ X.toList) ++ (' ' :: R)) =
      defineSecond ("glad_gl".toList ++ X.toList) (' ' :: R) := by
  simp only [defineWords]
  rw [takeWhile_append_all ("glad_gl".toList ++ X.toList) _ (by
    intro c hc
    rcases List.mem_append.mp hc with h | h
    · exact (by decide : ∀ c ∈ "glad_gl".toList, isWordAscii c = true) c h
    · exact hX c h)]
  rw [List.takeWhile_cons_of_neg (by decide)]
  simp only [List.append_nil]
  rw [List.drop_left' rfl]
  rw [if_pos (by
    rw [Bool.and_eq_true]
    constructor
    · exact isPrefixOf_append_self "gl".toList ("ad_gl".toList ++ X.toList)
    · simp only [decide_eq_true_eq, List.length_append]
      rw [show ("glad_gl".toList).length = 7 from rfl]
      omega)]

theorem defineSecond_glad (w1 : List Char) (Y : String)
    (hY : ∀ c ∈ Y.toList, isWordAscii c = true) (hYne : Y ≠ "") :
    defineSecond w1 (' ' :: ("glad_gl".toList ++ Y.toList)) =
      some (String.mk w1, "glad_gl" ++ Y) := by
  simp only [defineSecond]
  rw [List.dropWhile_cons_of_pos (by decide)]
  rw [show List.dropWhile pyIsSpace ("glad_gl".toList ++ Y.toList) =
    "glad_gl".toList ++ Y.toList from List.dropWhile_cons_of_neg (by decide)]
  rw [if_pos (by simp)]
  rw [List.takeWhile_eq_self_iff.mpr (by
    intro c hc
    rcases List.mem_append.mp hc with h | h
    · exact (by decide : ∀ c ∈ "glad_gl".toList, isWordAscii c = true) c h
    · exact hY c h)]
  rw [List.drop_length]
  rw [if_pos (by
    rw [Bool.and_eq_true, Bool.and_eq_true]
    refine ⟨⟨isPrefixOf_append_self "glad_gl".toList Y.toList, ?_⟩, rfl⟩
    simp only [decide_eq_true_eq, List.length_append]
    rw [show ("glad_gl".toList).length = 7 from rfl]
    have hne : Y.toList ≠ [] := by
      intro h
      apply hYne
      cases Y with
      | mk dd =>
        simp only [String.toList] at h
        rw [show ("" : String) = String.mk [] from rfl, h]
    have := List.length_pos.mpr hne
    omega)]
  rw [show ("glad_gl" ++ Y : String) = String.mk ("glad_gl".toList ++ Y.toList) from by
    cases Y with
    | mk dd => rfl]

/-- C10: a line of the shape `#define glad_glX glad_glY` matches
`DEFINE_RE` — the first capture's `gl` prefix also accepts identifiers
beginning `glad_gl` — so the rewriter treats it as a target define line
and attempts docblock synthesis for the internal name `glad_glX`. -/
theorem define_re_internal (X Y : String) (reg : GLRegistry) (refs : RefPages)
    (hX : ∀ c ∈ X.toList, isWordAscii c = true)
    (hY : ∀ c ∈ Y.toList, isWordAscii c = true) (hYne : Y ≠ "") :
    defineMatch ("#define glad_gl" ++ X ++ " glad_gl" ++ Y)
        = some ("glad_gl" ++ X, "glad_gl" ++ Y) ∧
    processLines reg refs ["#define glad_gl" ++ X ++ " glad_gl" ++ Y] =
      (build_doc ("glad_gl" ++ X) reg refs).toList ++
        ["#define glad_gl" ++ X ++ " glad_gl" ++ Y] := by
  have hmatch : defineMatch ("#define glad_gl" ++ X ++ " glad_gl" ++ Y)
      = some ("glad_gl" ++ X, "glad_gl" ++ Y) := by
    have hline : ("#define glad_gl" ++ X ++ " glad_gl" ++ Y).toList =
        '#' :: 'd' :: 'e' :: 'f' :: 'i' :: 'n' :: 'e' :: ' ' ::
          ("glad_gl".toList ++ (X.toList ++ (' ' :: ("glad_gl".toList ++ Y.toList)))) := by
      rw [string_toList_append, string_toList_append, string_toList_append]
      rw [show ("#define glad_gl".toList : List Char) =
        '#' :: 'd' :: 'e' :: 'f' :: 'i' :: 'n' :: 'e' :: ' ' :: "glad_gl".toList from rfl]
      rw [show (" glad_gl".toList : List Char) = ' ' :: "glad_gl".toList from rfl]
      simp [List.append_assoc]
    rw [defineMatch.eq_def, hline]
    rw [List.dropWhile_cons_of_neg (by decide)]
    dsimp only
    rw [if_neg (by simp)]
    rw [defineAfterHash_define, defineAfterDefine_space]
    rw [(List.append_assoc "glad_gl".toList X.toList
      (' ' :: ("glad_gl".toList ++ Y.toList))).symm]
    rw [defineWords_glad X _ hX, defineSecond_glad _ Y hY hYne]
    rw [show ("glad_gl" ++ X : String) = String.mk ("glad_gl".toList ++ X.toList) from by
      cases X with
      | mk dd => rfl]
  refine ⟨hmatch, ?_⟩
  rw [processLines]
  rw [show skipSet ["#define glad_gl" ++ X ++ " glad_gl" ++ Y] = [] from by
    rw [skipSet]
    rw [show List.range (["#define glad_gl" ++ X ++ " glad_gl" ++ Y] : List String).length
      = [0] from rfl]
    rw [List.flatMap_cons]
    rw [show find_docblock_above ["#define glad_gl" ++ X ++ " glad_gl" ++ Y] 0 = none
      from rfl]
    simp]
  rw [processLoop]
  rw [if_neg (by simp)]
  rw [hmatch]
  rfl

theorem define_re_internal_witness :
    defineMatch "#define glad_glFoo glad_glBar"
      = some ("glad_glFoo", "glad_glBar") :=
  (define_re_internal "Foo" "Bar" regEmpty refsEmpty (by decide) (by decide)
    (by decide)).1

/-! ## C6: adjacency rule of the pre-scan removal -/

/-- The first loop of `find_docblock_above` lands on `b` when `b` is
nonblank and every line strictly between `b` and the start `j` is blank. -/
theorem findNonblankUp_pos (lines : List String) :
    ∀ j b, b ≤ j → pyStrip (lines.getD b "") ≠ "" →
      (∀ t, b < t → t ≤ j → pyStrip (lines.getD t "") = "") →
      findNonblankUp lines j = some b := by
  intro j
  induction j with
  | zero =>
    intro b hb hnb _
    have hb0 : b = 0 := by omega
    subst hb0
    simp only [findNonblankUp]
    rw [if_neg hnb]
  | succ n ih =>
    intro b hb hnb hblank
    simp only [findNonblankUp]
    by_cases hbe : b = n + 1
    · subst hbe
      rw [if_neg hnb]
    · rw [if_pos (hblank (n + 1) (by omega) (le_refl _))]
      exact ih b (by omega) hnb (fun t h1 h2 => hblank t h1 (by omega))

/-- The second loop of `find_docblock_above` reaches the opener `a` when
every line strictly between `a` and the scan start `k` lacks an opener
and is blank or comment-like. -/
theorem scanCommentUp_pos (lines : List String) (e : Nat) :
    ∀ k a, a ≤ k → strContains (lines.getD a "") "/**" = true →
      (∀ t, a < t → t ≤ k →
        strContains (lines.getD t "") "/**" = false ∧
        (pyStrip (lines.getD t "") = "" ∨
         (strContains (lines.getD t "") "*/" ||
          pyStartsWith (pyLStrip (lines.getD t "")) "*" ||
          pyStartsWith (pyLStrip (lines.getD t "")) "/*") = true)) →
      scanCommentUp lines e k = some (a, e) := by
  intro k
  induction k with
  | zero =>
    intro a ha hopen _
    have ha0 : a = 0 := by omega
    subst ha0
    simp only [scanCommentUp]
    rw [if_pos hopen]
  | succ n ih =>
    intro a ha hopen hmid
    simp only [scanCommentUp]
    by_cases hae : a = n + 1
    · subst hae
      rw [if_pos hopen]
    · obtain ⟨hno, hcomm⟩ := hmid (n + 1) (by omega) (le_refl _)
      rw [if_neg (by simp only [hno]; decide)]
      rcases hcomm with hblank | hcm
      · rw [if_pos hblank]
        exact ih a (by omega) hopen (fun t h1 h2 => hmid t h1 (by omega))
      · by_cases hblank : pyStrip (lines.getD (n + 1) "") = ""
        · rw [if_pos hblank]
          exact ih a (by omega) hopen (fun t h1 h2 => hmid t h1 (by omega))
        · rw [if_neg hblank, if_pos hcm]
          exact ih a (by omega) hopen (fun t h1 h2 => hmid t h1 (by omega))

/-- The second loop of `find_docblock_above` fails when it meets a line
that lacks an opener, is nonblank, and is not comment-like, every line
between it and the scan start being blank or comment-like without an
opener. -/
theorem scanCommentUp_break (lines : List String) (e : Nat) :
    ∀ k p, p ≤ k →
      strContains (lines.getD p "") "/**" = false →
      pyStrip (lines.getD p "") ≠ "" →
      (strContains (lines.getD p "") "*/" ||
       pyStartsWith (pyLStrip (lines.getD p "")) "*" ||
       pyStartsWith (pyLStrip (lines.getD p "")) "/*") = false →
      (∀ t, p < t → t ≤ k →
        strContains (lines.getD t "") "/**" = false ∧
        (pyStrip (lines.getD t "") = "" ∨
         (strContains (lines.getD t "") "*/" ||
          pyStartsWith (pyLStrip (lines.getD t "")) "*" ||
          pyStartsWith (pyLStrip (lines.getD t "")) "/*") = true)) →
      scanCommentUp lines e k = none := by
  intro k
  induction k with
  | zero =>
    intro p hp hpopen _ _ _
    have hp0 : p = 0 := by omega
    subst hp0
    simp only [scanCommentUp]
    rw [if_neg (by simp only [hpopen]; decide)]
  | succ n ih =>
    intro p hp hpopen hpnb hpcomm hmid
    simp only [scanCommentUp]
    by_cases hpe : p = n + 1
    · subst hpe
      rw [if_neg (by simp only [hpopen]; decide), if_neg hpnb, if_neg (by simp only [hpcomm]; decide)]
    · obtain ⟨hno, hcomm⟩ := hmid (n + 1) (by omega) (le_refl _)
      rw [if_neg (by simp only [hno]; decide)]
      rcases hcomm with hblank | hcm
      · rw [if_pos hblank]
        exact ih p (by omega) hpopen hpnb hpcomm
          (fun t h1 h2 => hmid t h1 (by omega))
      · by_cases hblank : pyStrip (lines.getD (n + 1) "") = ""
        · rw [if_pos hblank]
          exact ih p (by omega) hpopen hpnb hpcomm
            (fun t h1 h2 => hmid t h1 (by omega))
        · rw [if_neg hblank, if_pos hcm]
          exact ih p (by omega) hpopen hpnb hpcomm
            (fun t h1 h2 => hmid t h1 (by omega))

/-- **C6 counterexample**: a docblock (`/** b */` at index 0) separated
from its matching macro line (index 2) by a single contiguous
comment-body line (` * stray`, nonblank, lstrip-starting with `*`) is
NOT found by `find_docblock_above` and nothing is marked for removal —
the first nonblank line above the define must itself contain `*/`, so
comment-body separators break adjacency, contrary to the claim's
"or contiguous comment-body lines" allowance. -/
theorem adjacency_comment_body_counterexample :
    (defineMatch (adjCE.getD 2 "")).isSome = true ∧
    strContains (adjCE.getD 0 "") "/**" = true ∧
    strContains (adjCE.getD 0 "") "*/" = true ∧
    pyStrip (adjCE.getD 1 "") ≠ "" ∧
    pyStartsWith (pyLStrip (adjCE.getD 1 "")) "*" = true ∧
    strContains (adjCE.getD 1 "") "*/" = false ∧
    find_docblock_above adjCE 2 = none ∧
    skipSet adjCE = [] := by decide

/-- **C6** (corrected). The pre-scan removal's adjacency rule, with the
corrected separator condition: let `b` be the last nonblank line strictly
above the define line `i` (every line between them blank — comment-body
separators are NOT tolerated here, contrary to the claim).
(1) If line `b` contains `*/` and an upward scan from `b` over lines that
lack `/**` and are blank or comment-like reaches an opener line `a`
containing `/**`, the search returns `(a, b)` and, when line `i` matches
the define pattern, every index in `[a, b]` is marked for removal.
(2) If line `b` does not contain `*/`, the search yields no match.
(3) If line `b` contains `*/` but the upward scan meets a line `p` that
lacks `/**`, is nonblank and is not comment-like, the search yields no
match. -/
theorem adjacency_removal (lines : List String) (i a b : Nat)
    (hbi : b < i)
    (hblank : ∀ t, b < t → t < i → pyStrip (lines.getD t "") = "")
    (hnb : pyStrip (lines.getD b "") ≠ "") :
    (strContains (lines.getD b "") "*/" = true →
     a ≤ b →
     strContains (lines.getD a "") "/**" = true →
     (∀ t, a < t → t ≤ b →
       strContains (lines.getD t "") "/**" = false ∧
       (pyStrip (lines.getD t "") = "" ∨
        (strContains (lines.getD t "") "*/" ||
         pyStartsWith (pyLStrip (lines.getD t "")) "*" ||
         pyStartsWith (pyLStrip (lines.getD t "")) "/*") = true)) →
     find_docblock_above lines i = some (a, b) ∧
     (i < lines.length → (defineMatch (lines.getD i "")).isSome = true →
      ∀ t, a ≤ t → t ≤ b → t ∈ skipSet lines)) ∧
    (strContains (lines.getD b "") "*/" = false →
     find_docblock_above lines i = none) ∧
    (∀ p, strContains (lines.getD b "") "*/" = true →
     p ≤ b →
     strContains (lines.getD p "") "/**" = false →
     pyStrip (lines.getD p "") ≠ "" →
     (strContains (lines.getD p "") "*/" ||
      pyStartsWith (pyLStrip (lines.getD p "")) "*" ||
      pyStartsWith (pyLStrip (lines.getD p "")) "/*") = false →
     (∀ t, p < t → t ≤ b →
       strContains (lines.getD t "") "/**" = false ∧
       (pyStrip (lines.getD t "") = "" ∨
        (strContains (lines.getD t "") "*/" ||
         pyStartsWith (pyLStrip (lines.getD t "")) "*" ||
         pyStartsWith (pyLStrip (lines.getD t "")) "/*") = true)) →
     find_docblock_above lines i = none) := by
  obtain ⟨j0, rfl⟩ : ∃ j0, i = j0 + 1 := ⟨i - 1, by omega⟩
  have hfnb : findNonblankUp lines j0 = some b :=
    findNonblankUp_pos lines j0 b (by omega) hnb
      (fun t h1 h2 => hblank t h1 (by omega))
  refine ⟨?_, ?_, ?_⟩
  · intro hclose hab hopen hmid
    have hfind : find_docblock_above lines (j0 + 1) = some (a, b) := by
      simp only [find_docblock_above]
      rw [hfnb]
      dsimp only
      rw [if_neg (not_not_intro hclose)]
      exact scanCommentUp_pos lines b b a hab hopen hmid
    refine ⟨hfind, ?_⟩
    intro hlen hdef t hat htb
    rw [skipSet]
    refine List.mem_flatMap.mpr ⟨j0 + 1, List.mem_range.mpr hlen, ?_⟩
    rw [if_pos hdef, hfind]
    exact List.mem_map.mpr ⟨t - a, List.mem_range.mpr (by omega), by omega⟩
  · intro hclose
    simp only [find_docblock_above]
    rw [hfnb]
    dsimp only
    rw [if_pos (by simp only [hclose]; decide)]
    rw [if_neg (by simp only [hclose]; simp)]
  · intro p hclose hpb hpopen hpnb hpcomm hmid
    simp only [find_docblock_above]
    rw [hfnb]
    dsimp only
    rw [if_neg (not_not_intro hclose)]
    exact scanCommentUp_break lines b b p hpb hpopen hpnb hpcomm hmid

theorem adjacency_removal_witness :
    find_docblock_above adjDemo 3 = some (0, 1) ∧
    0 ∈ skipSet adjDemo ∧ 1 ∈ skipSet adjDemo := by
  have h := adjacency_removal adjDemo 3 0 1 (by decide)
    (fun t h1 h2 => by interval_cases t; decide)
    (by decide)
  have hp := h.1 (by decide) (by decide) (by decide)
    (fun t h1 h2 => by interval_cases t; decide)
  exact ⟨hp.1, hp.2 (by decide) (by decide) 0 (by decide) (by decide),
    hp.2 (by decide) (by decide) 1 (by decide) (by decide)⟩

/-! ## C1: idempotence of the rewriter

The second run must split the first run's output back into lines, re-find
the freshly inserted docblock, remove it, and re-insert an identical one.
The machinery below relates `splitlines` to the `"\n".join` of
`outputString` and computes both runs of `process`. -/

theorem splitlinesAux_newline (cur rest : List Char) :
    splitlinesAux cur ('\n' :: rest)
      = String.mk cur.reverse :: splitlinesAux [] rest := rfl

theorem splitlinesAux_clean_cons (cur : List Char) (c : Char) (rest : List Char)
    (h : isLineBoundary c = false) :
    splitlinesAux cur (c :: rest) = splitlinesAux (c :: cur) rest := by
  rw [splitlinesAux.eq_def]
  split
  · simp_all
  · rename_i heq
    injection heq with h1 h2
    subst h1
    simp [isLineBoundary] at h
  · rename_i h1 h2
    injection h2 with h3 h4
    subst h3
    subst h4
    rw [if_neg (by simp [h])]

theorem splitlinesAux_clean_run :
    ∀ (cs : List Char), (∀ c ∈ cs, isLineBoundary c = false) →
      ∀ (cur rest : List Char),
        splitlinesAux cur (cs ++ '\n' :: rest)
          = String.mk (cur.reverse ++ cs) :: splitlinesAux [] rest := by
  intro cs
  induction cs with
  | nil =>
    intro _ cur rest
    simpa using splitlinesAux_newline cur rest
  | cons c cs ih =>
    intro h cur rest
    rw [List.cons_append, splitlinesAux_clean_cons cur c _ (h c (by simp))]
    rw [ih (fun x hx => h x (by simp [hx])) (c :: cur) rest]
    simp

theorem intercalate_go_sTail (s : String) :
    ∀ (l : List String) (acc : String),
      String.intercalate.go acc s l = acc ++ sTail s l := by
  intro l
  induction l with
  | nil => intro acc; simp [String.intercalate.go, sTail]
  | cons a as ih =>
    intro acc
    rw [String.intercalate.go, ih, sTail]
    simp [String.append_assoc]

theorem intercalate_cons (s a : String) (l : List String) :
    String.intercalate s (a :: l) = a ++ sTail s l := by
  rw [String.intercalate, intercalate_go_sTail]

theorem sTail_append (s : String) (A B : List String) :
    sTail s (A ++ B) = sTail s A ++ sTail s B := by
  induction A with
  | nil => simp [sTail]
  | cons a as ih => simp [sTail, ih, String.append_assoc]

theorem lineClean_chars (x : String) (h : lineClean x = true) :
    ∀ c ∈ x.toList, isLineBoundary c = false := by
  intro c hc
  have h2 : x.data.all (fun c => !isLineBoundary c) = true := h
  have := List.all_eq_true.mp h2 c hc
  simpa using this

theorem splitlines_intercalate :
    ∀ (L : List String), L ≠ [] → (∀ l ∈ L, lineClean l = true) →
      splitlines (String.intercalate "\n" L ++ "\n") = L := by
  intro L
  induction L with
  | nil => intro h _; exact absurd rfl h
  | cons x L ih =>
    intro _ hclean
    cases L with
    | nil =>
      rw [intercalate_cons]
      rw [show sTail "\n" ([] : List String) = "" from rfl, String.append_empty]
      rw [splitlines]
      rw [show (x ++ "\n").toList = x.toList ++ '\n' :: [] from by
        show (x ++ "\n").data = x.data ++ '\n' :: []
        simp [String.data_append]]
      rw [splitlinesAux_clean_run x.toList (lineClean_chars x (hclean x (by simp))) [] []]
      rfl
    | cons y L' =>
      rw [intercalate_cons]
      rw [show sTail "\n" (y :: L') = "\n" ++ String.intercalate "\n" (y :: L') from by
        rw [intercalate_cons, sTail]
        simp [String.append_assoc]]
      rw [splitlines]
      rw [show (x ++ ("\n" ++ String.intercalate "\n" (y :: L')) ++ "\n").toList
          = x.toList ++ '\n' :: ((String.intercalate "\n" (y :: L') ++ "\n").toList) from by
        show (x ++ ("\n" ++ String.intercalate "\n" (y :: L')) ++ "\n").data
          = x.data ++ '\n' :: ((String.intercalate "\n" (y :: L') ++ "\n").data)
        simp [String.data_append]]
      rw [splitlinesAux_clean_run x.toList (lineClean_chars x (hclean x (by simp))) []]
      rw [show String.mk (([] : List Char).reverse ++ x.toList) = x from rfl]
      rw [show splitlinesAux [] ((String.intercalate "\n" (y :: L') ++ "\n").toList)
          = splitlines (String.intercalate "\n" (y :: L') ++ "\n") from rfl]
      rw [ih (by simp) (fun l hl => hclean l (by simp [hl]))]

/-- `find_docblock_above` succeeds on a block whose closer is the last
nonblank line above the define and whose interior scan only crosses
comment-like lines. -/
theorem fda_pos (lines : List String) (i a b : Nat)
    (hbi : b < i)
    (hblank : ∀ t, b < t → t < i → pyStrip (lines.getD t "") = "")
    (hnb : pyStrip (lines.getD b "") ≠ "")
    (hclose : strContains (lines.getD b "") "*/" = true)
    (hab : a ≤ b)
    (hopen : strContains (lines.getD a "") "/**" = true)
    (hmid : ∀ t, a < t → t ≤ b →
      strContains (lines.getD t "") "/**" = false ∧
      (pyStrip (lines.getD t "") = "" ∨
       (strContains (lines.getD t "") "*/" ||
        pyStartsWith (pyLStrip (lines.getD t "")) "*" ||
        pyStartsWith (pyLStrip (lines.getD t "")) "/*") = true)) :
    find_docblock_above lines i = some (a, b) := by
  obtain ⟨j0, rfl⟩ : ∃ j0, i = j0 + 1 := ⟨i - 1, by omega⟩
  have hfnb : findNonblankUp lines j0 = some b :=
    findNonblankUp_pos lines j0 b (by omega) hnb
      (fun t h1 h2 => hblank t h1 (by omega))
  simp only [find_docblock_above]
  rw [hfnb]
  dsimp only
  rw [if_neg (not_not_intro hclose)]
  exact scanCommentUp_pos lines b b a hab hopen hmid

/-- The pre-scan marks nothing when every line either is no define or has
no docblock above it. -/
theorem skipSet_eq_nil (src : List String)
    (h : ∀ i, i < src.length →
      defineMatch (src.getD i "") = none ∨ find_docblock_above src i = none) :
    skipSet src = [] := by
  rw [skipSet]
  refine List.flatMap_eq_nil_iff.mpr ?_
  intro i hi
  rcases h i (List.mem_range.mp hi) with hc | hc
  · rw [if_neg (by simp only [hc]; simp)]
  · by_cases hd : (defineMatch (src.getD i "")).isSome = true
    · rw [if_pos hd, hc]
    · rw [if_neg (by simpa using hd)]

/-- With a single define line whose docblock search returns `(a, b)`, the
pre-scan marks exactly the indices in `[a, b]`. -/
theorem skipSet_single_mem (src : List String) (i0 a b : Nat)
    (hlen : i0 < src.length)
    (honly : ∀ i, i < src.length → i ≠ i0 → defineMatch (src.getD i "") = none)
    (hdef : (defineMatch (src.getD i0 "")).isSome = true)
    (hfda : find_docblock_above src i0 = some (a, b)) :
    ∀ t, t ∈ skipSet src ↔ (a ≤ t ∧ t ≤ b) := by
  intro t
  rw [skipSet]
  constructor
  · intro ht
    obtain ⟨i, hir, hmem⟩ := List.mem_flatMap.mp ht
    have hilen := List.mem_range.mp hir
    by_cases hie : i = i0
    · subst hie
      rw [if_pos hdef, hfda] at hmem
      obtain ⟨j, hj, hjt⟩ := List.mem_map.mp hmem
      have := List.mem_range.mp hj
      omega
    · rw [if_neg (by simp only [honly i hilen hie]; simp)] at hmem
      exact absurd hmem (List.not_mem_nil t)
  · rintro ⟨h1, h2⟩
    refine List.mem_flatMap.mpr ⟨i0, List.mem_range.mpr hlen, ?_⟩
    rw [if_pos hdef, hfda]
    exact List.mem_map.mpr ⟨t - a, List.mem_range.mpr (by omega), by omega⟩

/-- The main pass passes an unmarked define-free segment through
unchanged. -/
theorem processLoop_pass (reg : GLRegistry) (refs : RefPages) (skip : List Nat) :
    ∀ (ls : List String) (i : Nat) (rest : List String),
      (∀ j, j < ls.length → ¬ ((i + j) ∈ skip)) →
      (∀ l ∈ ls, defineMatch l = none) →
      processLoop reg refs skip i (ls ++ rest)
        = ls ++ processLoop reg refs skip (i + ls.length) rest := by
  intro ls
  induction ls with
  | nil => intro i rest _ _; simp
  | cons l ls ih =>
    intro i rest hskip hdef
    rw [List.cons_append, processLoop]
    rw [if_neg (by simpa using hskip 0 (by simp))]
    rw [hdef l (by simp)]
    dsimp only
    rw [ih (i + 1) rest
      (fun j hj => by
        have h := hskip (j + 1) (by simp [List.length_cons]; omega)
        have e : i + (j + 1) = i + 1 + j := by omega
        rw [e] at h
        exact h)
      (fun x hx => hdef x (by simp [hx]))]
    have e2 : i + 1 + ls.length = i + (l :: ls).length := by simp; omega
    rw [e2]
    rfl

/-- The main pass drops a fully marked segment. -/
theorem processLoop_skip (reg : GLRegistry) (refs : RefPages) (skip : List Nat) :
    ∀ (ls : List String) (i : Nat) (rest : List String),
      (∀ j, j < ls.length → (i + j) ∈ skip) →
      processLoop reg refs skip i (ls ++ rest)
        = processLoop reg refs skip (i + ls.length) rest := by
  intro ls
  induction ls with
  | nil => intro i rest _; simp
  | cons l ls ih =>
    intro i rest hskip
    rw [List.cons_append, processLoop]
    rw [if_pos (by simpa using hskip 0 (by simp))]
    rw [ih (i + 1) rest
      (fun j hj => by
        have h := hskip (j + 1) (by simp [List.length_cons]; omega)
        have e : i + (j + 1) = i + 1 + j := by omega
        rw [e] at h
        exact h)]
    have e2 : i + 1 + ls.length = i + (l :: ls).length := by simp; omega
    rw [e2]

theorem getD_mem (l : List String) (t : Nat) (h : t < l.length) :
    l.getD t "" ∈ l := by
  rw [List.getD_eq_getElem?_getD, List.getElem?_eq_getElem h]
  exact List.getElem_mem h

/-- Interior elements of a list satisfy a property checked by `all` on the
list with first and last removed. -/
theorem mid_prop (ls : List String) (P : String → Bool)
    (h : ((ls.drop 1).dropLast).all P = true) (k : Nat)
    (h1 : 1 ≤ k) (h2 : k + 1 < ls.length) :
    P (ls.getD k "") = true := by
  obtain ⟨k', rfl⟩ : ∃ k', k = k' + 1 := ⟨k - 1, by omega⟩
  have hdl : k' < ((ls.drop 1).dropLast).length := by
    simp [List.length_dropLast, List.length_drop]
    omega
  have hmem : ((ls.drop 1).dropLast)[k'] ∈ (ls.drop 1).dropLast :=
    List.getElem_mem hdl
  have hP := List.all_eq_true.mp h _ hmem
  have hk2 : k' + 1 < ls.length := by omega
  have he : ((ls.drop 1).dropLast)[k'] = ls[k' + 1] := by
    rw [List.getElem_dropLast, List.getElem_drop]
    congr 1
    omega
  rw [he] at hP
  rw [List.getD_eq_getElem?_getD,
    List.getElem?_eq_getElem (show k' + 1 < ls.length by omega)]
  exact hP

/-- The heart of the idempotence argument: with a single define line at the
end, no pre-existing block above it, and a well-shaped freshly built block,
the second run re-detects exactly the inserted block, removes it, and
re-inserts an identical one. -/
theorem process_idempotent_core (reg : GLRegistry) (refs : RefPages)
    (pre : List String) (c d doc : String) (m : String × String)
    (ls : List String)
    (h2 : 2 ≤ ls.length)
    (hhead : ls.head? = some "/**")
    (hlast : ls.getLast? = some " */")
    (hrt : String.intercalate "\n" ls = doc)
    (hcleanls : ls.all lineClean = true)
    (hnodef : ls.all (fun l => (defineMatch l).isNone) = true)
    (hmids : ((ls.drop 1).dropLast).all
      (fun l => !(strContains l "/**") && !(pyStrip l == "") &&
        pyStartsWith (pyLStrip l) "*") = true)
    (hsplit : splitlines c = pre ++ [d])
    (hd : defineMatch d = some m)
    (hbd : build_doc m.1 reg refs = some doc)
    (hpre : ∀ l ∈ pre, defineMatch l = none ∧ lineClean l = true)
    (hdclean : lineClean d = true)
    (hfda : find_docblock_above (pre ++ [d]) pre.length = none) :
    processRun reg refs (processRun reg refs c) = processRun reg refs c := by
  have hskip1 : skipSet (pre ++ [d]) = [] := by
    apply skipSet_eq_nil
    intro i hi
    have hlen1 : (pre ++ [d]).length = pre.length + 1 := by simp
    by_cases h1 : i < pre.length
    · left
      rw [List.getD_append _ _ _ _ h1]
      exact (hpre _ (getD_mem pre i h1)).1
    · right
      have hieq : i = pre.length := by omega
      rw [hieq]
      exact hfda
  have hrun1 : processLines reg refs (pre ++ [d]) = pre ++ [doc, d] := by
    rw [processLines, hskip1]
    rw [processLoop_pass reg refs [] pre 0 [d]
      (fun j _ => List.not_mem_nil _) (fun l hl => (hpre l hl).1)]
    simp only [Nat.zero_add]
    rw [processLoop]
    rw [if_neg (List.not_mem_nil _)]
    rw [hd]
    dsimp only
    rw [hbd]
    rfl
  have hout1 : processRun reg refs c = outputString (pre ++ [doc, d]) := by
    rw [processRun, hsplit, hrun1]
  obtain ⟨l0, ls', hls⟩ : ∃ l0 ls', ls = l0 :: ls' := by
    cases hls0 : ls with
    | nil => rw [hls0] at h2; simp at h2
    | cons a b => exact ⟨a, b, rfl⟩
  have hrt' : l0 ++ sTail "\n" ls' = doc := by
    rw [hls, intercalate_cons] at hrt
    exact hrt
  have hinter : String.intercalate "\n" (pre ++ [doc, d])
      = String.intercalate "\n" (pre ++ (ls ++ [d])) := by
    rw [← hrt', hls]
    cases pre with
    | nil =>
      simp [intercalate_cons, sTail_append, sTail, String.append_assoc]
    | cons p ps =>
      simp [intercalate_cons, sTail_append, sTail, String.append_assoc]
  have hsplit2 : splitlines (outputString (pre ++ [doc, d]))
      = pre ++ (ls ++ [d]) := by
    rw [outputString, hinter]
    apply splitlines_intercalate
    · simp
    · intro l hl
      rcases List.mem_append.mp hl with h | h
      · exact (hpre l h).2
      · rcases List.mem_append.mp h with h' | h'
        · exact List.all_eq_true.mp hcleanls l h'
        · simp at h'
          rw [h']
          exact hdclean
  have hlen2 : (pre ++ (ls ++ [d])).length = pre.length + ls.length + 1 := by
    simp
    omega
  have hgetls : ∀ t, pre.length ≤ t → t - pre.length < ls.length →
      (pre ++ (ls ++ [d])).getD t "" = ls.getD (t - pre.length) "" := by
    intro t ht1 ht2
    rw [List.getD_append_right _ _ _ _ ht1, List.getD_append _ _ _ _ ht2]
  have hgetd : (pre ++ (ls ++ [d])).getD (pre.length + ls.length) "" = d := by
    rw [List.getD_append_right _ _ _ _
      (show pre.length ≤ pre.length + ls.length by omega)]
    rw [Nat.add_sub_cancel_left]
    rw [List.getD_append_right _ _ _ _ (le_refl _)]
    rw [Nat.sub_self]
    rfl
  have hheadv : ls.getD 0 "" = "/**" := by
    rw [List.getD_eq_getElem?_getD, ← List.head?_eq_getElem?, hhead]
    rfl
  have hlastv : ls.getD (ls.length - 1) "" = " */" := by
    rw [List.getD_eq_getElem?_getD, ← List.getLast?_eq_getElem?, hlast]
    rfl
  have honly : ∀ i, i < (pre ++ (ls ++ [d])).length →
      i ≠ pre.length + ls.length →
      defineMatch ((pre ++ (ls ++ [d])).getD i "") = none := by
    intro i hi hne
    by_cases h1 : i < pre.length
    · rw [List.getD_append _ _ _ _ h1]
      exact (hpre _ (getD_mem pre i h1)).1
    · have h1' : pre.length ≤ i := by omega
      have h2' : i - pre.length < ls.length := by
        rw [hlen2] at hi
        omega
      rw [hgetls i h1' h2']
      have h3 := List.all_eq_true.mp hnodef _ (getD_mem ls (i - pre.length) h2')
      exact Option.isNone_iff_eq_none.mp h3
  have hdefd : (defineMatch
      ((pre ++ (ls ++ [d])).getD (pre.length + ls.length) "")).isSome = true := by
    rw [hgetd, hd]
    rfl
  have hfda2 : find_docblock_above (pre ++ (ls ++ [d])) (pre.length + ls.length)
      = some (pre.length, pre.length + ls.length - 1) := by
    apply fda_pos
    · omega
    · intro t ht1 ht2
      omega
    · rw [hgetls (pre.length + ls.length - 1) (by omega) (by omega),
        show pre.length + ls.length - 1 - pre.length = ls.length - 1 by omega,
        hlastv]
      decide
    · rw [hgetls (pre.length + ls.length - 1) (by omega) (by omega),
        show pre.length + ls.length - 1 - pre.length = ls.length - 1 by omega,
        hlastv]
      decide
    · omega
    · rw [hgetls pre.length (le_refl _) (by omega), Nat.sub_self, hheadv]
      decide
    · intro t ht1 ht2
      rw [hgetls t (by omega) (by omega)]
      by_cases hke : t - pre.length = ls.length - 1
      · rw [hke, hlastv]
        exact ⟨by decide, Or.inr (by decide)⟩
      · have hP := mid_prop ls _ hmids (t - pre.length) (by omega) (by omega)
        simp only [Bool.and_eq_true, Bool.not_eq_true'] at hP
        obtain ⟨⟨hP1, hP2⟩, hP3⟩ := hP
        exact ⟨hP1, Or.inr (by rw [hP3]; simp)⟩
  have hskipiff := skipSet_single_mem (pre ++ (ls ++ [d]))
    (pre.length + ls.length) pre.length (pre.length + ls.length - 1)
    (by rw [hlen2]; omega) honly hdefd hfda2
  have hrun2 : processLines reg refs (pre ++ (ls ++ [d])) = pre ++ [doc, d] := by
    rw [processLines]
    rw [processLoop_pass reg refs (skipSet (pre ++ (ls ++ [d]))) pre 0 (ls ++ [d])
      (fun j hj hmem => by
        have := (hskipiff (0 + j)).mp hmem
        omega)
      (fun l hl => (hpre l hl).1)]
    simp only [Nat.zero_add]
    rw [processLoop_skip reg refs (skipSet (pre ++ (ls ++ [d]))) ls pre.length [d]
      (fun j hj => (hskipiff (pre.length + j)).mpr ⟨by omega, by omega⟩)]
    rw [processLoop]
    rw [if_neg (fun hmem => by
      have := (hskipiff _).mp hmem
      omega)]
    rw [hd]
    dsimp only
    rw [hbd]
    rfl
  calc processRun reg refs (processRun reg refs c)
      = processRun reg refs (outputString (pre ++ [doc, d])) := by rw [hout1]
    _ = outputString (processLines reg refs (pre ++ (ls ++ [d]))) := by
        rw [processRun, hsplit2]
    _ = outputString (pre ++ [doc, d]) := by rw [hrun2]
    _ = processRun reg refs c := hout1.symm

/-- **C1 counterexample**: running the rewriter twice is not always the
same as running it once — here the first run removes an old block whose
removal exposes comment-like lines right above the define line, which the
second run then removes as well. -/
theorem process_idempotence_counterexample :
    processRun regEmpty refsEmpty
        (processRun regEmpty refsEmpty (outputString idemCEsrc))
      ≠ processRun regEmpty refsEmpty (outputString idemCEsrc) := by decide

/-- **C1** (corrected). Idempotence of `process` holds under side
conditions the claim omits: for a source whose lines are single-line, with
one define line at the end, no pre-existing docblock detected above it,
and whose synthesized block is well-shaped (`goodDoc`), the second run
splits the first run's output, re-detects exactly the freshly inserted
block, removes it, and re-inserts an identical block, so the output is
byte-identical. Without these conditions idempotence can fail (see the
counterexample). -/
theorem process_idempotent (reg : GLRegistry) (refs : RefPages)
    (pre : List String) (c d doc : String) (m : String × String)
    (hsplit : splitlines c = pre ++ [d])
    (hd : defineMatch d = some m)
    (hbd : build_doc m.1 reg refs = some doc)
    (hgd : goodDoc doc = true)
    (hpre : ∀ l ∈ pre, defineMatch l = none ∧ lineClean l = true)
    (hdclean : lineClean d = true)
    (hfda : find_docblock_above (pre ++ [d]) pre.length = none) :
    processRun reg refs (processRun reg refs c) = processRun reg refs c := by
  have hg : (decide (2 ≤ (splitlines doc).length) &&
      ((splitlines doc).head? == some "/**") &&
      ((splitlines doc).getLast? == some " */") &&
      (String.intercalate "\n" (splitlines doc) == doc) &&
      (splitlines doc).all lineClean &&
      (splitlines doc).all (fun l => (defineMatch l).isNone) &&
      (((splitlines doc).drop 1).dropLast).all
        (fun l => !(strContains l "/**") && !(pyStrip l == "") &&
          pyStartsWith (pyLStrip l) "*")) = true := hgd
  simp only [Bool.and_eq_true] at hg
  obtain ⟨⟨⟨⟨⟨⟨hA, hB⟩, hC⟩, hD⟩, hE⟩, hF⟩, hG⟩ := hg
  exact process_idempotent_core reg refs pre c d doc m (splitlines doc)
    (of_decide_eq_true hA) (eq_of_beq hB) (eq_of_beq hC) (eq_of_beq hD)
    hE hF hG hsplit hd hbd hpre hdclean hfda

theorem process_idempotent_witness :
    processRun regSpecExample refsEmpty
        (processRun regSpecExample refsEmpty "#define glFoo glad_glFoo\n")
      = processRun regSpecExample refsEmpty "#define glFoo glad_glFoo\n" :=
  process_idempotent regSpecExample refsEmpty [] "#define glFoo glad_glFoo\n"
    "#define glFoo glad_glFoo"
    "/**\n * \\param x (GLint)\n * \\see https://registry.khronos.org/OpenGL-Refpages/gl4/html/glFoo.xhtml\n * \\note Introduced in OpenGL 4.0\n */"
    ("glFoo", "glad_glFoo")
    (by decide) (by decide) (by decide) (by decide)
    (fun l hl => absurd hl (List.not_mem_nil l)) (by decide) (by decide)

end GladDoxygen
